import Mathlib

/-!
stable_map: an insertion-ordered map with tombstones and compaction.

A shallow embedding of `stable_map.go` and proofs about it.

Memory model.  The Go code stores *pointers* to entries both in the slice
`entries` and in the map `refMap`, so a write through one is seen through the
other.  The embedding keeps this sharing: `State.mem` lists the entry cells
allocated so far, a pointer is the position of its cell in `mem`, and both
`entries` and `refMap` hold such positions.  `newEntry` allocates at the end of
`mem`; cells are never moved or freed (unreferenced cells are simply garbage).

Integers.  `len` and `deleted` are Go `int`s.  They are modelled by `Int`
without wrap-around: both counters are bounded by `len(entries)`, itself a Go
`int`, so they stay inside the machine range.

Locks.  Every mutating method runs under the exclusive lock, so the methods
are modelled as atomic state transformers.

Keys.  `Set`, `Get` and `Delete` below compare keys with Lean's equality: they
are the methods on key types whose `==` is reflexive.  Go's `comparable` also
admits keys that differ from themselves (a float64 NaN, or a struct or array
holding one); `anykey.Set`, `anykey.Get` and `anykey.Delete` are the same
methods on such key types, and coincide with the former when every key equals
itself (`anykey_Set_eq`, `anykey_Get_eq`, `anykey_Delete_eq`).
-/

namespace stable_map

variable {K V : Type}

/-- The Go struct `entry[K, V]`: one cell of the entry store. -/
structure entry (K V : Type) where
  key : K
  value : V
  deleted : Bool

/-- The fields of the Go struct `StableMap[K, V]` (the mutex is not modelled).
`entries` is the slice of entry pointers, `refMap` the Go map from keys to
entry pointers (`none` when the key is not in the map). -/
structure StableMap (K V : Type) where
  entries : List Nat
  refMap : K → Option Nat
  len : Int
  deleted : Int

/-- A program state: the allocated entry cells and the fields of the map. -/
structure State (K V : Type) where
  mem : List (entry K V)
  sm : StableMap K V

/-- Reading through an entry pointer.  Pointers held by a map always come from
`newEntry`, so on the states a map can reach the result is `some`. -/
def deref (mem : List (entry K V)) (p : Nat) : Option (entry K V) := mem[p]?

/-- Go `newEntry(key, value)`: allocates a fresh cell with `deleted = false`
and returns the new memory together with the pointer to the cell. -/
def newEntry (mem : List (entry K V)) (key : K) (value : V) :
    List (entry K V) × Nat :=
  (mem ++ [{ key := key, value := value, deleted := false }], mem.length)

/-- Go `sm.init()`: fresh empty slice and map, both counters zero. -/
def init (s : State K V) : State K V :=
  { mem := s.mem
    sm := { entries := [], refMap := fun _ => none, len := 0, deleted := 0 } }

/-- Go `NewStableMap()`: `new(StableMap)` followed by `init()`, in a program
whose entry cells so far are `mem`. -/
def NewStableMap (mem : List (entry K V)) : State K V :=
  init { mem := mem
         sm := { entries := [], refMap := fun _ => none, len := 0, deleted := 0 } }

/-- The `for _, e := range sm.entries` loop of `delete()`: copies forward the
pointers whose cell is not flagged deleted, appending to `acc`. -/
def compactLoop (mem : List (entry K V)) : List Nat → List Nat → List Nat
  | [], acc => acc
  | p :: ps, acc =>
    match deref mem p with
    | some e => if e.deleted then compactLoop mem ps acc else compactLoop mem ps (acc ++ [p])
    | none => compactLoop mem ps acc

/-- The capacity requested by `make` in the compaction branch of `delete()`:
`len(sm.entries) - sm.deleted`, computed after `deleted` was incremented. -/
def compactCap (s : State K V) : Int :=
  (s.sm.entries.length : Int) - (s.sm.deleted + 1)

/-- Go `sm.delete()`: adjusts the counters and compacts once the tombstone
count reaches 100000.  `none` models the run-time panic of `make` on a
negative capacity. -/
def delete (s : State K V) : Option (State K V) :=
  let len := s.sm.len - 1
  let deleted := s.sm.deleted + 1
  if deleted ≥ 100000 then
    if compactCap s < 0 then none
    else
      some { mem := s.mem
             sm := { entries := compactLoop s.mem s.sm.entries []
                     refMap := s.sm.refMap, len := len, deleted := 0 } }
  else
    some { mem := s.mem
           sm := { entries := s.sm.entries, refMap := s.sm.refMap
                   len := len, deleted := deleted } }

/-- Go `sm.Delete(key)`. -/
def Delete [DecidableEq K] [Inhabited V] (s : State K V) (key : K) : Option (State K V) :=
  match s.sm.refMap key with
  | some p =>
    delete
      { mem := s.mem.modify (fun e => { key := e.key, value := default, deleted := true }) p
        sm := { entries := s.sm.entries
                refMap := Function.update s.sm.refMap key none
                len := s.sm.len, deleted := s.sm.deleted } }
  | none => some s

/-- Go `sm.Len()`. -/
def Len (s : State K V) : Int := s.sm.len

/-- Go `sm.Reset()`. -/
def Reset (s : State K V) : State K V := init s

/-- Go `sm.Set(key, value)`. -/
def Set [DecidableEq K] (s : State K V) (key : K) (value : V) : State K V :=
  let insert : State K V :=
    let a := newEntry s.mem key value
    { mem := a.1
      sm := { entries := s.sm.entries ++ [a.2]
              refMap := Function.update s.sm.refMap key (some a.2)
              len := s.sm.len + 1, deleted := s.sm.deleted } }
  match s.sm.refMap key with
  | some p =>
    match deref s.mem p with
    | some e =>
      if e.deleted = false then
        { mem := s.mem.modify (fun e => { key := e.key, value := value, deleted := e.deleted }) p
          sm := s.sm }
      else insert
    | none => insert
  | none => insert

/-- Go `sm.Get(key)`. -/
def Get [Inhabited V] (s : State K V) (key : K) : V × Bool :=
  match s.sm.refMap key with
  | some p =>
    match deref s.mem p with
    | some e => (e.value, true)
    | none => (default, true)
  | none => (default, false)

/-- Go `iter.Seq[T]`, a push iterator `func(yield func(T) bool)`.  The
consumer's loop body is a state transformer on its own state `σ` that also
says whether to continue. -/
def Seq (α : Type) : Type 1 := (σ : Type) → (σ → α → σ × Bool) → σ → σ

/-- Go `iter.Seq2[K, V]`. -/
def Seq2 (K V : Type) : Type 1 := (σ : Type) → (σ → K → V → σ × Bool) → σ → σ

/-- The loop shared by `All`, `Keys` and `Values`:
`for _, e := range sm.entries { if e.deleted { continue }; if !yield(..) { break } }`. -/
def rangeEntries {σ : Type} (mem : List (entry K V)) (yield : σ → entry K V → σ × Bool) :
    List Nat → σ → σ
  | [], acc => acc
  | p :: ps, acc =>
    match deref mem p with
    | some e =>
      if e.deleted then rangeEntries mem yield ps acc
      else
        let r := yield acc e
        if r.2 then rangeEntries mem yield ps r.1 else r.1
    | none => rangeEntries mem yield ps acc

/-- Go `sm.All()`.  The returned closure reads the map when it is run, so `s`
is the state in which the sequence is consumed. -/
def All (s : State K V) : Seq2 K V :=
  fun _ yield acc => rangeEntries s.mem (fun a e => yield a e.key e.value) s.sm.entries acc

/-- Go `sm.Keys()`. -/
def Keys (s : State K V) : Seq K :=
  fun _ yield acc => rangeEntries s.mem (fun a e => yield a e.key) s.sm.entries acc

/-- Go `sm.Values()`. -/
def Values (s : State K V) : Seq V :=
  fun _ yield acc => rangeEntries s.mem (fun a e => yield a e.value) s.sm.entries acc

/-- Go `SequenceToSlice(seq)`, that is `slices.Collect`: ranges over the whole
sequence and appends every element. -/
def SequenceToSlice {α : Type} (seq : Seq α) : List α :=
  seq (List α) (fun acc v => (acc ++ [v], true)) []

/-- The pairs a two-valued sequence yields to a consumer that never stops,
in the order they are yielded (`for k, v := range seq { append }`). -/
def Seq2ToSlice (seq : Seq2 K V) : List (K × V) :=
  seq (List (K × V)) (fun acc k v => (acc ++ [(k, v)], true)) []

/-- The public mutating operations. -/
inductive Op (K V : Type) where
  | set (key : K) (value : V)
  | delete (key : K)
  | reset

/-- One public operation; `none` when the operation panics. -/
def step [DecidableEq K] [Inhabited V] (s : State K V) : Op K V → Option (State K V)
  | .set k v => some (Set s k v)
  | .delete k => Delete s k
  | .reset => some (Reset s)

/-- A sequence of public operations, left to right. -/
def run [DecidableEq K] [Inhabited V] (s : State K V) : List (Op K V) → Option (State K V)
  | [] => some s
  | op :: ops => (step s op).bind (fun s1 => run s1 ops)

/-- The states a map created by `NewStableMap` can be in after finitely many
calls of `Set`, `Delete` and `Reset`. -/
def Reachable [DecidableEq K] [Inhabited V] (s : State K V) : Prop :=
  ∃ (mem : List (entry K V)) (ops : List (Op K V)), run (NewStableMap mem) ops = some s

/-- The cells behind a list of pointers that are not flagged deleted,
in list order. -/
def liveCells (mem : List (entry K V)) (ps : List Nat) : List (entry K V) :=
  (ps.filterMap (deref mem)).filter (fun e => !e.deleted)

/-- The map as the specification describes it: the list of live pairs in
iteration order.  `Set` replaces the value of a present key in place and
appends an absent key at the tail. -/
def specSet [DecidableEq K] (l : List (K × V)) (k : K) (v : V) : List (K × V) :=
  if k ∈ l.map Prod.fst then l.map (fun kv => if kv.1 = k then (k, v) else kv)
  else l ++ [(k, v)]

/-- Specification view of `Delete`: the pair of the key disappears, the other
pairs keep their order. -/
def specDelete [DecidableEq K] (l : List (K × V)) (k : K) : List (K × V) :=
  l.filter (fun kv => decide (kv.1 ≠ k))

/-- Specification view of one public operation. -/
def specStep [DecidableEq K] (l : List (K × V)) : Op K V → List (K × V)
  | .set k v => specSet l k v
  | .delete k => specDelete l k
  | .reset => []

/-- Specification view of a sequence of public operations. -/
def specRun [DecidableEq K] (l : List (K × V)) : List (Op K V) → List (K × V)
  | [] => l
  | op :: ops => specRun (specStep l op) ops

/-- The map of the repository's tests after `Set(1, "one"); Set(3, "three")`. -/
def exOneThree : State Nat String :=
  Set (Set (NewStableMap []) 1 "one") 3 "three"

/-- The state in which `Delete(key)` calls `sm.delete()`: the entry behind the
pointer `p` found in `refMap` is flagged and cleared and the key is removed
from `refMap`; the counters are not yet adjusted. -/
def markDeleted [DecidableEq K] [Inhabited V] (s : State K V) (key : K) (p : Nat) :
    State K V :=
  { mem := s.mem.modify (fun e => { key := e.key, value := default, deleted := true }) p
    sm := { entries := s.sm.entries
            refMap := Function.update s.sm.refMap key none
            len := s.sm.len, deleted := s.sm.deleted } }

/-- The value `sm.All()` returns when called in state `_s`: a closure over the
pointer `sm`.  Its body reads `sm.entries` only when it is run, so the closure
is a function of the state `t` in which it is consumed and captures nothing of
the state of the call. -/
def callAll (_s : State K V) : State K V → Seq2 K V := fun t => All t

/-- The value `sm.Keys()` returns when called in state `_s` (see `callAll`). -/
def callKeys (_s : State K V) : State K V → Seq K := fun t => Keys t

/-- The value `sm.Values()` returns when called in state `_s` (see `callAll`). -/
def callValues (_s : State K V) : State K V → Seq V := fun t => Values t

/-- Consuming a finite list with a loop body that has its own state: the body
is called on the elements in order until it returns `false` or the list ends. -/
def feed {σ α : Type} (yield : σ → α → σ × Bool) : List α → σ → σ
  | [], acc => acc
  | x :: xs, acc =>
    let r := yield acc x
    if r.2 then feed yield xs r.1 else r.1

/-- A consumer of a one-valued sequence that records every element passed to
it and returns `false` on its `n`-th call (and `true` on the calls before). -/
def stopAt {α : Type} (n : Nat) : List α → α → List α × Bool :=
  fun acc v => (acc ++ [v], decide (acc.length + 1 < n))

/-- The same consumer for a two-valued sequence. -/
def stopAt2 (n : Nat) : List (K × V) → K → V → List (K × V) × Bool :=
  fun acc k v => (acc ++ [(k, v)], decide (acc.length + 1 < n))

/-- Whether an operation names the key `k`: `Set(k, _)` or `Delete(k)`. -/
def Op.onKey [DecidableEq K] (k : K) : Op K V → Bool
  | .set j _ => decide (j = k)
  | .delete j => decide (j = k)
  | .reset => false

/-- Whether an operation affects the key `k`: it names `k`, or it is `Reset`. -/
def Op.touches [DecidableEq K] (k : K) : Op K V → Bool
  | .set j _ => decide (j = k)
  | .delete j => decide (j = k)
  | .reset => true

/-- Whether an operation is a `Set`. -/
def Op.isSet : Op K V → Bool
  | .set _ _ => true
  | .delete _ => false
  | .reset => false

/-- Whether the most recent operation of `ops` on the key `k` (a `Set` or a
`Delete` of `k`) is a `Set`; `false` when no operation names `k`. -/
def lastOnKeyIsSet [DecidableEq K] (ops : List (Op K V)) (k : K) : Bool :=
  match (ops.filter (Op.onKey k)).getLast? with
  | some op => op.isSet
  | none => false

/-- Whether the most recent operation of `ops` that affects the key `k`
(a `Set` or a `Delete` of `k`, or a `Reset`) is a `Set`. -/
def lastTouchingIsSet [DecidableEq K] (ops : List (Op K V)) (k : K) : Bool :=
  match (ops.filter (Op.touches k)).getLast? with
  | some op => op.isSet
  | none => false

/-- The operations `Set(1, "one"); Delete(1); Set(1, "ONE")`. -/
def opsReinsert : List (Op Nat String) := [Op.set 1 "one", Op.delete 1, Op.set 1 "ONE"]

/-- A Go `comparable` key type.  Lean's equality on `K` is Go's `==` between
keys that equal themselves, and `selfEq k` is Go's `k == k`: it is `false` for
a float64 NaN and for a struct or array holding one, which Go's `==` tells
apart from every key, itself included. -/
class Comparable (K : Type) where
  selfEq : K → Bool

/-- Go's `k == j` on a comparable key type. -/
def goEq [DecidableEq K] [Comparable K] (k j : K) : Bool :=
  decide (k = j) && Comparable.selfEq k

/-- The Go map lookup `sm.refMap[key]` (comma-ok form).  `refMap` records what
lookups of self-equal keys return; a key that differs from itself is never
found. -/
def mapLookup [Comparable K] (m : K → Option Nat) (key : K) : Option Nat :=
  if Comparable.selfEq key = true then m key else none

/-- The Go map assignment `sm.refMap[key] = e`, as later lookups see it.  For a
key that differs from itself Go adds a bucket that no lookup can ever find, so
the lookup table is unchanged. -/
def mapAssign [DecidableEq K] [Comparable K] (m : K → Option Nat) (key : K) (p : Nat) :
    K → Option Nat :=
  if Comparable.selfEq key = true then Function.update m key (some p) else m

/-- The Go builtin `delete(sm.refMap, key)`, as later lookups see it.  For a
key that differs from itself it removes nothing. -/
def mapDelete [DecidableEq K] [Comparable K] (m : K → Option Nat) (key : K) :
    K → Option Nat :=
  if Comparable.selfEq key = true then Function.update m key none else m

/-- Go `sm.Delete(key)` on an arbitrary comparable key type. -/
def anykey.Delete [DecidableEq K] [Comparable K] [Inhabited V] (s : State K V) (key : K) :
    Option (State K V) :=
  match mapLookup s.sm.refMap key with
  | some p =>
    delete
      { mem := s.mem.modify (fun e => { key := e.key, value := default, deleted := true }) p
        sm := { entries := s.sm.entries
                refMap := mapDelete s.sm.refMap key
                len := s.sm.len, deleted := s.sm.deleted } }
  | none => some s

/-- Go `sm.Set(key, value)` on an arbitrary comparable key type. -/
def anykey.Set [DecidableEq K] [Comparable K] (s : State K V) (key : K) (value : V) :
    State K V :=
  let insert : State K V :=
    let a := newEntry s.mem key value
    { mem := a.1
      sm := { entries := s.sm.entries ++ [a.2]
              refMap := mapAssign s.sm.refMap key a.2
              len := s.sm.len + 1, deleted := s.sm.deleted } }
  match mapLookup s.sm.refMap key with
  | some p =>
    match deref s.mem p with
    | some e =>
      if e.deleted = false then
        { mem := s.mem.modify (fun e => { key := e.key, value := value, deleted := e.deleted }) p
          sm := s.sm }
      else insert
    | none => insert
  | none => insert

/-- Go `sm.Get(key)` on an arbitrary comparable key type. -/
def anykey.Get [Comparable K] [Inhabited V] (s : State K V) (key : K) : V × Bool :=
  match mapLookup s.sm.refMap key with
  | some p =>
    match deref s.mem p with
    | some e => (e.value, true)
    | none => (default, true)
  | none => (default, false)

/-- One public operation on an arbitrary comparable key type; `none` when the
operation panics. -/
def anykey.step [DecidableEq K] [Comparable K] [Inhabited V] (s : State K V) :
    Op K V → Option (State K V)
  | .set k v => some (anykey.Set s k v)
  | .delete k => anykey.Delete s k
  | .reset => some (Reset s)

/-- A sequence of public operations on an arbitrary comparable key type. -/
def anykey.run [DecidableEq K] [Comparable K] [Inhabited V] (s : State K V) :
    List (Op K V) → Option (State K V)
  | [] => some s
  | op :: ops => (anykey.step s op).bind (fun s1 => anykey.run s1 ops)

/-- The states a map over an arbitrary comparable key type can be in after
finitely many calls of `Set`, `Delete` and `Reset` on a map from `NewStableMap`. -/
def anykey.Reachable [DecidableEq K] [Comparable K] [Inhabited V] (s : State K V) : Prop :=
  ∃ (mem : List (entry K V)) (ops : List (Op K V)),
    anykey.run (NewStableMap mem) ops = some s

/-- The representation invariant on an arbitrary comparable key type: as `Inv`,
but `refMap` holds exactly the self-equal keys of the non-deleted cells of
`entries`; a non-deleted cell whose key differs from itself is in `entries`
and not reachable through `refMap`. -/
structure anykey.Inv [Comparable K] (s : State K V) : Prop where
  valid : ∀ p ∈ s.sm.entries, p < s.mem.length
  nodup : s.sm.entries.Nodup
  ref_live : ∀ k p, s.sm.refMap k = some p →
    p ∈ s.sm.entries ∧ Comparable.selfEq k = true ∧
      ∃ e, deref s.mem p = some e ∧ e.key = k ∧ e.deleted = false
  live_ref : ∀ p ∈ s.sm.entries, ∀ e, deref s.mem p = some e → e.deleted = false →
    Comparable.selfEq e.key = true → s.sm.refMap e.key = some p
  len_eq : s.sm.len = ((liveCells s.mem s.sm.entries).length : Int)
  total : s.sm.len + s.sm.deleted = (s.sm.entries.length : Int)

/-- A float64-like key type: the numbers, which equal themselves, and NaN,
which does not. -/
inductive FloatKey where
  | nan
  | num (n : Nat)
  deriving DecidableEq

instance : Comparable FloatKey where
  selfEq
    | .nan => false
    | .num _ => true

/-- A map with float64-like keys after `Set(1, "one"); Set(NaN, "x")`. -/
def exFloat : State FloatKey String :=
  anykey.Set (anykey.Set (NewStableMap []) (FloatKey.num 1) "one") FloatKey.nan "x"

/-- The operations `Set(1, "one"); Reset()` on float64-like keys. -/
def opsSetResetFloat : List (Op FloatKey String) :=
  [Op.set (FloatKey.num 1) "one", Op.reset]

/-- The operation `Set(NaN, "a")`. -/
def opsSetNaN : List (Op FloatKey String) := [Op.set FloatKey.nan "a"]

/-- The operations `Set(NaN, "a"); Delete(NaN); Set(NaN, "b")`. -/
def opsNaNReinsert : List (Op FloatKey String) :=
  [Op.set FloatKey.nan "a", Op.delete FloatKey.nan, Op.set FloatKey.nan "b"]

/-- The operations `Set(1, "one"); Set(NaN, "x"); Delete(1); Set(1, "ONE")`. -/
def opsFloat : List (Op FloatKey String) :=
  [Op.set (FloatKey.num 1) "one", Op.set FloatKey.nan "x", Op.delete (FloatKey.num 1),
    Op.set (FloatKey.num 1) "ONE"]

/-- Whether the cell behind a pointer exists and is not flagged deleted. -/
def isLive (mem : List (entry K V)) (p : Nat) : Bool :=
  match deref mem p with
  | some e => !e.deleted
  | none => false

/-- The representation invariant of the map: every pointer in `entries` refers
to an allocated cell, no pointer occurs twice, `refMap` maps exactly the keys of
the non-deleted cells of `entries` to those cells, `len` counts the non-deleted
cells and `len + deleted` is the length of `entries`. -/
structure Inv (s : State K V) : Prop where
  valid : ∀ p ∈ s.sm.entries, p < s.mem.length
  nodup : s.sm.entries.Nodup
  ref_live : ∀ k p, s.sm.refMap k = some p →
    p ∈ s.sm.entries ∧ ∃ e, deref s.mem p = some e ∧ e.key = k ∧ e.deleted = false
  live_ref : ∀ p ∈ s.sm.entries, ∀ e, deref s.mem p = some e → e.deleted = false →
    s.sm.refMap e.key = some p
  len_eq : s.sm.len = ((liveCells s.mem s.sm.entries).length : Int)
  total : s.sm.len + s.sm.deleted = (s.sm.entries.length : Int)

/-! ## Memory and loop lemmas -/

theorem deref_modify_eq (mem : List (entry K V)) (f : entry K V → entry K V) (p : Nat) :
    deref (mem.modify f p) p = (deref mem p).map f := by
  simp [deref]

theorem deref_modify_ne (mem : List (entry K V)) (f : entry K V → entry K V) {p q : Nat}
    (h : p ≠ q) : deref (mem.modify f p) q = deref mem q := by
  simp [deref, List.getElem?_modify_ne f mem h]

theorem deref_append_lt {mem : List (entry K V)} (e : entry K V) {q : Nat}
    (h : q < mem.length) : deref (mem ++ [e]) q = deref mem q := by
  simp [deref, List.getElem?_append_left h]

theorem deref_append_length (mem : List (entry K V)) (e : entry K V) :
    deref (mem ++ [e]) mem.length = some e := by
  simp [deref]

theorem deref_lt {mem : List (entry K V)} {p : Nat} {e : entry K V}
    (h : deref mem p = some e) : p < mem.length := by
  unfold deref at h
  exact (List.getElem?_eq_some.1 h).1

theorem liveCells_nil (mem : List (entry K V)) : liveCells mem [] = [] := rfl

theorem liveCells_cons_some {mem : List (entry K V)} {p : Nat} {e : entry K V}
    (h : deref mem p = some e) (ps : List Nat) :
    liveCells mem (p :: ps) = if e.deleted then liveCells mem ps else e :: liveCells mem ps := by
  unfold liveCells
  rw [List.filterMap_cons, h]
  cases hd : e.deleted <;> simp [List.filter_cons, hd]

theorem liveCells_cons_none {mem : List (entry K V)} {p : Nat}
    (h : deref mem p = none) (ps : List Nat) :
    liveCells mem (p :: ps) = liveCells mem ps := by
  unfold liveCells
  rw [List.filterMap_cons, h]

theorem liveCells_append (mem : List (entry K V)) (l1 l2 : List Nat) :
    liveCells mem (l1 ++ l2) = liveCells mem l1 ++ liveCells mem l2 := by
  simp [liveCells]

theorem liveCells_congr {mem mem2 : List (entry K V)} {ps : List Nat}
    (h : ∀ q ∈ ps, deref mem2 q = deref mem q) : liveCells mem2 ps = liveCells mem ps := by
  unfold liveCells
  congr 1
  induction ps with
  | nil => rfl
  | cons p ps ih =>
    rw [List.filterMap_cons, List.filterMap_cons, h p (List.mem_cons_self p ps),
      ih (fun q hq => h q (List.mem_cons_of_mem p hq))]

theorem rangeEntries_collect {α : Type} (mem : List (entry K V)) (f : entry K V → α) :
    ∀ (ps : List Nat) (acc : List α),
      rangeEntries mem (fun a e => (a ++ [f e], true)) ps acc
        = acc ++ (liveCells mem ps).map f
  | [], acc => by simp [rangeEntries, liveCells_nil]
  | p :: ps, acc => by
    cases h : deref mem p with
    | none =>
      simp only [rangeEntries, h, liveCells_cons_none h]
      exact rangeEntries_collect mem f ps acc
    | some e =>
      cases hd : e.deleted with
      | true =>
        simp only [rangeEntries, h, liveCells_cons_some h, hd, if_true]
        exact rangeEntries_collect mem f ps acc
      | false =>
        simp only [rangeEntries, h, liveCells_cons_some h, hd, if_true]
        rw [rangeEntries_collect mem f ps (acc ++ [f e])]
        simp

theorem compactLoop_eq (mem : List (entry K V)) :
    ∀ (ps acc : List Nat), compactLoop mem ps acc = acc ++ ps.filter (isLive mem)
  | [], acc => by simp [compactLoop]
  | p :: ps, acc => by
    cases h : deref mem p with
    | none =>
      simp only [compactLoop, h, List.filter_cons, isLive]
      rw [compactLoop_eq mem ps acc]
      simp
    | some e =>
      cases hd : e.deleted with
      | true =>
        simp only [compactLoop, h, List.filter_cons, isLive, hd, if_true]
        rw [compactLoop_eq mem ps acc]
        simp
      | false =>
        simp only [compactLoop, h, List.filter_cons, isLive, hd]
        rw [compactLoop_eq mem ps (acc ++ [p])]
        simp

theorem liveCells_filter_isLive (mem : List (entry K V)) (ps : List Nat) :
    liveCells mem (ps.filter (isLive mem)) = liveCells mem ps := by
  induction ps with
  | nil => rfl
  | cons p ps ih =>
    cases h : deref mem p with
    | none => simp [List.filter_cons, isLive, h, liveCells_cons_none h, ih]
    | some e =>
      cases hd : e.deleted with
      | true => simp [List.filter_cons, isLive, h, liveCells_cons_some h, hd, ih]
      | false => simp [List.filter_cons, isLive, h, liveCells_cons_some h, hd, ih]

theorem length_filter_isLive (mem : List (entry K V)) (ps : List Nat) :
    (ps.filter (isLive mem)).length = (liveCells mem ps).length := by
  induction ps with
  | nil => rfl
  | cons p ps ih =>
    cases h : deref mem p with
    | none => simp [List.filter_cons, isLive, h, liveCells_cons_none h, ih]
    | some e =>
      cases hd : e.deleted with
      | true => simp [List.filter_cons, isLive, h, liveCells_cons_some h, hd, ih]
      | false => simp [List.filter_cons, isLive, h, liveCells_cons_some h, hd, ih]

theorem mem_liveCells {mem : List (entry K V)} {ps : List Nat} {c : entry K V} :
    c ∈ liveCells mem ps ↔ ∃ q ∈ ps, deref mem q = some c ∧ c.deleted = false := by
  simp only [liveCells, List.mem_filter, List.mem_filterMap, Bool.not_eq_true']
  constructor
  · rintro ⟨⟨q, hq, hd⟩, hc⟩
    exact ⟨q, hq, hd, hc⟩
  · rintro ⟨q, hq, hd, hc⟩
    exact ⟨⟨q, hq, hd⟩, hc⟩

theorem length_liveCells_le (mem : List (entry K V)) (ps : List Nat) :
    (liveCells mem ps).length ≤ ps.length := by
  unfold liveCells
  exact (List.length_filter_le _ _).trans (List.length_filterMap_le _ _)

theorem liveCells_modify_split (mem : List (entry K V)) (f : entry K V → entry K V)
    {p : Nat} {e : entry K V} {l1 l2 : List Nat} (h1 : p ∉ l1) (h2 : p ∉ l2)
    (he : deref mem p = some e) :
    liveCells (mem.modify f p) (l1 ++ p :: l2)
      = liveCells mem l1 ++ (if (f e).deleted then [] else [f e]) ++ liveCells mem l2 := by
  have hne : ∀ l : List Nat, p ∉ l → liveCells (mem.modify f p) l = liveCells mem l := by
    intro l hl
    apply liveCells_congr
    intro q hq
    apply deref_modify_ne
    rintro rfl
    exact hl hq
  have hp : deref (mem.modify f p) p = some (f e) := by
    rw [deref_modify_eq, he]; rfl
  rw [liveCells_append, liveCells_cons_some hp, hne l1 h1, hne l2 h2]
  cases (f e).deleted <;> simp

theorem liveCells_split {mem : List (entry K V)} {p : Nat} {e : entry K V}
    (l1 l2 : List Nat) (he : deref mem p = some e) (hd : e.deleted = false) :
    liveCells mem (l1 ++ p :: l2) = liveCells mem l1 ++ e :: liveCells mem l2 := by
  rw [liveCells_append, liveCells_cons_some he, hd]
  simp

/-! ## The three views as lists -/

theorem Keys_eq (s : State K V) :
    SequenceToSlice (Keys s) = (liveCells s.mem s.sm.entries).map (fun e => e.key) := by
  unfold SequenceToSlice Keys
  rw [rangeEntries_collect s.mem (fun e => e.key)]
  simp

theorem Values_eq (s : State K V) :
    SequenceToSlice (Values s) = (liveCells s.mem s.sm.entries).map (fun e => e.value) := by
  unfold SequenceToSlice Values
  rw [rangeEntries_collect s.mem (fun e => e.value)]
  simp

theorem All_eq (s : State K V) :
    Seq2ToSlice (All s) = (liveCells s.mem s.sm.entries).map (fun e => (e.key, e.value)) := by
  unfold Seq2ToSlice All
  rw [rangeEntries_collect s.mem (fun e => (e.key, e.value))]
  simp

/-! ## Consequences of the invariant -/

theorem Inv.split {s : State K V} (h : Inv s) {k : K} {p : Nat}
    (hr : s.sm.refMap k = some p) :
    ∃ l1 l2 e, s.sm.entries = l1 ++ p :: l2 ∧ p ∉ l1 ∧ p ∉ l2 ∧
      deref s.mem p = some e ∧ e.key = k ∧ e.deleted = false ∧
      (∀ c ∈ liveCells s.mem l1, c.key ≠ k) ∧ (∀ c ∈ liveCells s.mem l2, c.key ≠ k) := by
  obtain ⟨hp, e, he, hk, hd⟩ := h.ref_live k p hr
  obtain ⟨l1, l2, hl⟩ := List.append_of_mem hp
  have hnd := h.nodup
  rw [hl] at hnd
  have hp1 : p ∉ l1 := by
    intro hm
    have := (List.nodup_append.1 hnd).2.2
    exact this hm (List.mem_cons_self p l2)
  have hp2 : p ∉ l2 := by
    have := (List.nodup_append.1 hnd).2.1
    exact (List.nodup_cons.1 this).1
  have key : ∀ l : List Nat, (∀ q ∈ l, q ∈ s.sm.entries) → p ∉ l →
      ∀ c ∈ liveCells s.mem l, c.key ≠ k := by
    intro l hsub hpl c hc hck
    obtain ⟨q, hq, hqc, hqd⟩ := mem_liveCells.1 hc
    have := h.live_ref q (hsub q hq) c hqc hqd
    rw [hck, hr] at this
    injection this with this
    exact hpl (this ▸ hq)
  refine ⟨l1, l2, e, hl, hp1, hp2, he, hk, hd, key l1 ?_ hp1, key l2 ?_ hp2⟩
  · intro q hq; rw [hl]; exact List.mem_append_left _ hq
  · intro q hq; rw [hl]; exact List.mem_append_right _ (List.mem_cons_of_mem _ hq)

theorem Inv.not_ref {s : State K V} (h : Inv s) {k : K} (hr : s.sm.refMap k = none) :
    ∀ c ∈ liveCells s.mem s.sm.entries, c.key ≠ k := by
  intro c hc hck
  obtain ⟨q, hq, hqc, hqd⟩ := mem_liveCells.1 hc
  have := h.live_ref q hq c hqc hqd
  rw [hck, hr] at this
  cases this

theorem liveCells_insert {mem : List (entry K V)} {ps : List Nat} (c : entry K V)
    (hv : ∀ q ∈ ps, q < mem.length) (hc : c.deleted = false) :
    liveCells (mem ++ [c]) (ps ++ [mem.length]) = liveCells mem ps ++ [c] := by
  rw [liveCells_append, liveCells_cons_some (deref_append_length mem c), hc,
    liveCells_congr (fun q hq => deref_append_lt c (hv q hq))]
  simp [liveCells_nil]

/-! ## What each operation does to the state -/

theorem Set_of_ref [DecidableEq K] {s : State K V} (h : Inv s) {k : K} {p : Nat}
    (hr : s.sm.refMap k = some p) (v : V) :
    Set s k v =
      { mem := s.mem.modify (fun e => { key := e.key, value := v, deleted := e.deleted }) p
        sm := s.sm } := by
  obtain ⟨_, e, he, _, hd⟩ := h.ref_live k p hr
  simp [Set, hr, he, hd]

theorem Set_of_not_ref [DecidableEq K] (s : State K V) {k : K} (hr : s.sm.refMap k = none) (v : V) :
    Set s k v =
      { mem := s.mem ++ [{ key := k, value := v, deleted := false }]
        sm := { entries := s.sm.entries ++ [s.mem.length]
                refMap := Function.update s.sm.refMap k (some s.mem.length)
                len := s.sm.len + 1, deleted := s.sm.deleted } } := by
  simp [Set, hr, newEntry]

theorem delete_eq {s : State K V} (h : 0 ≤ compactCap s) :
    delete s = some
      { mem := s.mem
        sm := { entries := if s.sm.deleted + 1 ≥ 100000
                             then s.sm.entries.filter (isLive s.mem) else s.sm.entries
                refMap := s.sm.refMap
                len := s.sm.len - 1
                deleted := if s.sm.deleted + 1 ≥ 100000 then 0 else s.sm.deleted + 1 } } := by
  unfold delete
  by_cases hc : s.sm.deleted + 1 ≥ 100000
  · simp [hc, not_lt.2 h, compactLoop_eq]
  · simp [hc]

theorem Delete_of_not_ref [DecidableEq K] [Inhabited V] (s : State K V) {k : K} (hr : s.sm.refMap k = none) :
    Delete s k = some s := by
  simp [Delete, hr]

theorem Delete_of_ref [DecidableEq K] [Inhabited V] {s : State K V} (h : Inv s) {k : K} {p : Nat}
    (hr : s.sm.refMap k = some p) :
    Delete s k = some
      { mem := s.mem.modify (fun e => { key := e.key, value := default, deleted := true }) p
        sm := { entries := if s.sm.deleted + 1 ≥ 100000
                  then s.sm.entries.filter (isLive
                    (s.mem.modify (fun e => { key := e.key, value := default, deleted := true }) p))
                  else s.sm.entries
                refMap := Function.update s.sm.refMap k none
                len := s.sm.len - 1
                deleted := if s.sm.deleted + 1 ≥ 100000 then 0 else s.sm.deleted + 1 } } := by
  obtain ⟨l1, l2, e, hl, _, _, he, _, hd, _, _⟩ := h.split hr
  have hlen : 1 ≤ s.sm.len := by
    rw [h.len_eq, hl, liveCells_split l1 l2 he hd]
    simp
    omega
  have htot := h.total
  simp only [Delete, hr]
  rw [delete_eq]
  simp only [compactCap]
  omega

/-! ## The invariant holds in every reachable state -/

theorem Inv_init (s : State K V) : Inv (init s) where
  valid := by intro p hp; cases hp
  nodup := List.nodup_nil
  ref_live := by intro k p hr; cases hr
  live_ref := by intro p hp; cases hp
  len_eq := rfl
  total := rfl

theorem Inv_NewStableMap (mem : List (entry K V)) : Inv (NewStableMap mem) := Inv_init _

theorem Inv_Reset (s : State K V) : Inv (Reset s) := Inv_init s

theorem Inv_Set [DecidableEq K] {s : State K V} (h : Inv s) (k : K) (v : V) :
    Inv (Set s k v) := by
  cases hr : s.sm.refMap k with
  | some p =>
    rw [Set_of_ref h hr]
    obtain ⟨l1, l2, e, hl, h1, h2, he, _, hd, _, _⟩ := h.split hr
    refine ⟨?_, h.nodup, ?_, ?_, ?_, h.total⟩
    · intro q hq
      simpa using h.valid q hq
    · intro k2 p2 hr2
      obtain ⟨hp2, e2, he2, hk2, hd2⟩ := h.ref_live k2 p2 hr2
      refine ⟨hp2, ?_⟩
      by_cases hpp : p = p2
      · subst hpp
        refine ⟨{ key := e2.key, value := v, deleted := e2.deleted }, ?_, hk2, hd2⟩
        show deref (s.mem.modify _ p) p = _
        rw [deref_modify_eq, he2]; rfl
      · exact ⟨e2, (deref_modify_ne _ _ hpp).trans he2, hk2, hd2⟩
    · intro q hq c hc hcd
      by_cases hpq : p = q
      · subst hpq
        have hc2 : deref (s.mem.modify
            (fun e => { key := e.key, value := v, deleted := e.deleted }) p) p = some c := hc
        rw [deref_modify_eq, he] at hc2
        injection hc2 with hc2
        subst hc2
        exact h.live_ref p hq e he hd
      · have hc2 : deref (s.mem.modify
            (fun e => { key := e.key, value := v, deleted := e.deleted }) p) q = some c := hc
        rw [deref_modify_ne _ _ hpq] at hc2
        exact h.live_ref q hq c hc2 hcd
    · show s.sm.len = ((liveCells (s.mem.modify _ p) s.sm.entries).length : Int)
      rw [h.len_eq, hl, liveCells_modify_split _ _ h1 h2 he, liveCells_split l1 l2 he hd]
      simp [hd]
  | none =>
    rw [Set_of_not_ref s hr]
    refine ⟨?_, ?_, ?_, ?_, ?_, ?_⟩
    · intro q hq
      simp only [List.mem_append, List.mem_singleton] at hq
      simp only [List.length_append, List.length_singleton]
      rcases hq with hq | hq
      · exact Nat.lt_succ_of_lt (h.valid q hq)
      · omega
    · refine List.nodup_append.2 ⟨h.nodup, List.nodup_singleton _, ?_⟩
      intro q hq hq2
      have := h.valid q hq
      simp only [List.mem_singleton] at hq2
      omega
    · intro k2 p2 hr2
      by_cases hk : k2 = k
      · subst hk
        simp only [Function.update_same] at hr2
        injection hr2 with hr2
        subst hr2
        exact ⟨by simp, _, deref_append_length _ _, rfl, rfl⟩
      · simp only [Function.update_noteq hk] at hr2
        obtain ⟨hp2, e2, he2, hk2, hd2⟩ := h.ref_live k2 p2 hr2
        exact ⟨List.mem_append_left _ hp2, e2,
          (deref_append_lt _ (h.valid p2 hp2)).trans he2, hk2, hd2⟩
    · intro q hq c hc hcd
      simp only [List.mem_append, List.mem_singleton] at hq
      rcases hq with hq | hq
      · have hc2 : deref (s.mem ++ [{ key := k, value := v, deleted := false }]) q = some c := hc
        rw [deref_append_lt _ (h.valid q hq)] at hc2
        have hq2 := h.live_ref q hq c hc2 hcd
        have hne : c.key ≠ k := by
          intro hck
          rw [hck, hr] at hq2
          cases hq2
        simpa [Function.update_noteq hne] using hq2
      · subst hq
        have hc2 : deref (s.mem ++ [{ key := k, value := v, deleted := false }]) s.mem.length
            = some c := hc
        rw [deref_append_length] at hc2
        injection hc2 with hc2
        subst hc2
        simp
    · show s.sm.len + 1 = ((liveCells (s.mem ++ [_]) (s.sm.entries ++ [s.mem.length])).length : Int)
      rw [liveCells_insert _ h.valid rfl, h.len_eq]
      simp
    · show s.sm.len + 1 + s.sm.deleted = ((s.sm.entries ++ [s.mem.length]).length : Int)
      have := h.total
      simp only [List.length_append, List.length_singleton]
      push_cast
      omega

theorem isLive_of_deref {mem : List (entry K V)} {p : Nat} {e : entry K V}
    (he : deref mem p = some e) (hd : e.deleted = false) : isLive mem p = true := by
  simp [isLive, he, hd]

theorem Inv_Delete [DecidableEq K] [Inhabited V] {s s2 : State K V} (h : Inv s) {k : K}
    (hdel : Delete s k = some s2) : Inv s2 := by
  cases hr : s.sm.refMap k with
  | none =>
    rw [Delete_of_not_ref s hr] at hdel
    injection hdel with hdel
    exact hdel ▸ h
  | some p =>
    rw [Delete_of_ref h hr] at hdel
    injection hdel with hdel
    subst hdel
    obtain ⟨l1, l2, e, hl, h1, h2, he, hk, hd, _, _⟩ := h.split hr
    -- the memory after the entry was flagged
    generalize hm : s.mem.modify (fun e => { key := e.key, value := default, deleted := true }) p
      = mem2
    have hlen2 : mem2.length = s.mem.length := by rw [← hm]; simp
    have hp2 : deref mem2 p = some { key := e.key, value := default, deleted := true } := by
      rw [← hm, deref_modify_eq, he]; rfl
    have hq2 : ∀ q, p ≠ q → deref mem2 q = deref s.mem q := by
      intro q hpq; rw [← hm]; exact deref_modify_ne _ _ hpq
    have hcells : liveCells mem2 s.sm.entries = liveCells s.mem l1 ++ liveCells s.mem l2 := by
      rw [← hm, hl, liveCells_modify_split _ _ h1 h2 he]
      simp
    have hcells0 : liveCells s.mem s.sm.entries
        = liveCells s.mem l1 ++ e :: liveCells s.mem l2 := by
      rw [hl]; exact liveCells_split l1 l2 he hd
    have hlen := h.len_eq
    rw [hcells0] at hlen
    simp only [List.length_append, List.length_cons] at hlen
    push_cast at hlen
    -- the index after the key was removed
    have href : ∀ k2 p2, Function.update s.sm.refMap k none k2 = some p2 →
        p2 ∈ s.sm.entries ∧ isLive mem2 p2 = true ∧
          ∃ e2, deref mem2 p2 = some e2 ∧ e2.key = k2 ∧ e2.deleted = false := by
      intro k2 p2 hr2
      by_cases hk2 : k2 = k
      · subst hk2
        simp at hr2
      · rw [Function.update_noteq hk2] at hr2
        obtain ⟨hp, e2, he2, hke2, hde2⟩ := h.ref_live k2 p2 hr2
        have hne : p ≠ p2 := by
          rintro rfl
          rw [he] at he2
          injection he2 with he2
          subst he2
          exact hk2 (hke2.symm.trans hk)
        have he3 : deref mem2 p2 = some e2 := (hq2 p2 hne).trans he2
        exact ⟨hp, isLive_of_deref he3 hde2, e2, he3, hke2, hde2⟩
    have hlive : ∀ q ∈ s.sm.entries, ∀ c, deref mem2 q = some c → c.deleted = false →
        Function.update s.sm.refMap k none c.key = some q := by
      intro q hq c hc hcd
      have hne : p ≠ q := by
        rintro rfl
        rw [hp2] at hc
        injection hc with hc
        subst hc
        cases hcd
      rw [hq2 q hne] at hc
      have hq3 := h.live_ref q hq c hc hcd
      have hck : c.key ≠ k := by
        intro hck
        rw [hck, hr] at hq3
        injection hq3 with hq3
        exact hne hq3
      rw [Function.update_noteq hck]
      exact hq3
    by_cases hc : s.sm.deleted + 1 ≥ 100000
    · simp only [hc, if_true]
      refine ⟨?_, ?_, ?_, ?_, ?_, ?_⟩
      · intro q hq
        rw [hlen2]
        exact h.valid q (List.mem_filter.1 hq).1
      · exact h.nodup.filter _
      · intro k2 p2 hr2
        obtain ⟨hp, hl2, he2⟩ := href k2 p2 hr2
        exact ⟨List.mem_filter.2 ⟨hp, hl2⟩, he2⟩
      · intro q hq c hcq hcd
        exact hlive q (List.mem_filter.1 hq).1 c hcq hcd
      · show s.sm.len - 1 = ((liveCells mem2 (s.sm.entries.filter (isLive mem2))).length : Int)
        rw [liveCells_filter_isLive, hcells]
        simp only [List.length_append]
        push_cast
        omega
      · show s.sm.len - 1 + 0 = ((s.sm.entries.filter (isLive mem2)).length : Int)
        rw [length_filter_isLive, hcells]
        simp only [List.length_append]
        push_cast
        omega
    · simp only [hc, if_false]
      refine ⟨?_, h.nodup, ?_, hlive, ?_, ?_⟩
      · intro q hq
        rw [hlen2]
        exact h.valid q hq
      · intro k2 p2 hr2
        obtain ⟨hp, _, he2⟩ := href k2 p2 hr2
        exact ⟨hp, he2⟩
      · show s.sm.len - 1 = ((liveCells mem2 s.sm.entries).length : Int)
        rw [hcells]
        simp only [List.length_append]
        push_cast
        omega
      · show s.sm.len - 1 + (s.sm.deleted + 1) = (s.sm.entries.length : Int)
        have := h.total
        omega

theorem Inv_step [DecidableEq K] [Inhabited V] {s s2 : State K V} (h : Inv s) {op : Op K V}
    (hs : step s op = some s2) : Inv s2 := by
  cases op with
  | set k v =>
    simp only [step, Option.some.injEq] at hs
    exact hs ▸ Inv_Set h k v
  | delete k => exact Inv_Delete h hs
  | reset =>
    simp only [step, Option.some.injEq] at hs
    exact hs ▸ Inv_Reset s

theorem Inv_run [DecidableEq K] [Inhabited V] :
    ∀ (ops : List (Op K V)) {s s2 : State K V}, Inv s → run s ops = some s2 → Inv s2
  | [], s, s2, h, hr => by
    simp only [run, Option.some.injEq] at hr
    exact hr ▸ h
  | op :: ops, s, s2, h, hr => by
    simp only [run] at hr
    cases hs : step s op with
    | none => rw [hs] at hr; cases hr
    | some s1 =>
      rw [hs] at hr
      exact Inv_run ops (Inv_step h hs) hr

theorem Inv_of_Reachable [DecidableEq K] [Inhabited V] {s : State K V} (h : Reachable s) :
    Inv s := by
  obtain ⟨mem, ops, hr⟩ := h
  exact Inv_run ops (Inv_NewStableMap mem) hr

/-! ## Effect of each operation on the live cells -/

theorem Get_of_not_ref [Inhabited V] (s : State K V) {k : K} (hr : s.sm.refMap k = none) :
    Get s k = (default, false) := by
  simp [Get, hr]

theorem Get_of_ref [Inhabited V] {s : State K V} {k : K} {p : Nat} {e : entry K V}
    (hr : s.sm.refMap k = some p) (he : deref s.mem p = some e) :
    Get s k = (e.value, true) := by
  simp [Get, hr, he]

theorem ref_of_found [Inhabited V] {s : State K V} {k : K} (h : (Get s k).2 = true) :
    ∃ p, s.sm.refMap k = some p := by
  cases hr : s.sm.refMap k with
  | none => rw [Get_of_not_ref s hr] at h; cases h
  | some p => exact ⟨p, rfl⟩

theorem not_ref_of_not_found [Inhabited V] {s : State K V} {k : K} (h : (Get s k).2 = false) :
    s.sm.refMap k = none := by
  cases hr : s.sm.refMap k with
  | none => rfl
  | some p =>
    exfalso
    cases he : deref s.mem p with
    | none => simp [Get, hr, he] at h
    | some e => simp [Get, hr, he] at h

theorem cells_split {s : State K V} (h : Inv s) {k : K} {p : Nat}
    (hr : s.sm.refMap k = some p) :
    ∃ L1 L2 e, deref s.mem p = some e ∧ e.key = k ∧ e.deleted = false ∧
      liveCells s.mem s.sm.entries = L1 ++ e :: L2 ∧
      (∀ c ∈ L1, c.key ≠ k) ∧ (∀ c ∈ L2, c.key ≠ k) := by
  obtain ⟨l1, l2, e, hl, _, _, he, hk, hd, hk1, hk2⟩ := h.split hr
  refine ⟨liveCells s.mem l1, liveCells s.mem l2, e, he, hk, hd, ?_, hk1, hk2⟩
  rw [hl]
  exact liveCells_split l1 l2 he hd

theorem cells_Set_live [DecidableEq K] {s : State K V} (h : Inv s) {k : K} {p : Nat}
    (hr : s.sm.refMap k = some p) (v : V) :
    ∃ L1 L2 e, deref s.mem p = some e ∧ e.key = k ∧ e.deleted = false ∧
      liveCells s.mem s.sm.entries = L1 ++ e :: L2 ∧
      liveCells (Set s k v).mem (Set s k v).sm.entries
        = L1 ++ { key := k, value := v, deleted := false } :: L2 ∧
      (∀ c ∈ L1, c.key ≠ k) ∧ (∀ c ∈ L2, c.key ≠ k) := by
  obtain ⟨l1, l2, e, hl, h1, h2, he, hk, hd, hk1, hk2⟩ := h.split hr
  refine ⟨liveCells s.mem l1, liveCells s.mem l2, e, he, hk, hd, ?_, ?_, hk1, hk2⟩
  · rw [hl]
    exact liveCells_split l1 l2 he hd
  · rw [Set_of_ref h hr]
    show liveCells (s.mem.modify _ p) s.sm.entries = _
    rw [hl, liveCells_modify_split _ _ h1 h2 he]
    simp [hd, hk]

theorem cells_Set_new [DecidableEq K] {s : State K V} (h : Inv s) {k : K}
    (hr : s.sm.refMap k = none) (v : V) :
    liveCells (Set s k v).mem (Set s k v).sm.entries
      = liveCells s.mem s.sm.entries ++ [{ key := k, value := v, deleted := false }] := by
  rw [Set_of_not_ref s hr]
  exact liveCells_insert _ h.valid rfl

theorem cells_Delete [DecidableEq K] [Inhabited V] {s : State K V} (h : Inv s) {k : K} {p : Nat}
    (hr : s.sm.refMap k = some p) :
    ∃ s2 L1 L2 e, Delete s k = some s2 ∧ deref s.mem p = some e ∧ e.key = k ∧
      e.deleted = false ∧
      liveCells s.mem s.sm.entries = L1 ++ e :: L2 ∧
      liveCells s2.mem s2.sm.entries = L1 ++ L2 ∧
      (∀ c ∈ L1, c.key ≠ k) ∧ (∀ c ∈ L2, c.key ≠ k) := by
  obtain ⟨l1, l2, e, hl, h1, h2, he, hk, hd, hk1, hk2⟩ := h.split hr
  refine ⟨_, liveCells s.mem l1, liveCells s.mem l2, e, Delete_of_ref h hr, he, hk, hd,
    ?_, ?_, hk1, hk2⟩
  · rw [hl]
    exact liveCells_split l1 l2 he hd
  · have hcells : liveCells
        (s.mem.modify (fun e => { key := e.key, value := default, deleted := true }) p)
        s.sm.entries = liveCells s.mem l1 ++ liveCells s.mem l2 := by
      rw [hl, liveCells_modify_split _ _ h1 h2 he]
      simp
    by_cases hc : s.sm.deleted + 1 ≥ 100000
    · simp only [hc, if_true]
      rw [liveCells_filter_isLive, hcells]
    · simp only [hc, if_false]
      exact hcells

/-! ## Lookup and the views -/

theorem Get_true_iff [Inhabited V] {s : State K V} (h : Inv s) (k : K) (v : V) :
    Get s k = (v, true) ↔ (k, v) ∈ Seq2ToSlice (All s) := by
  rw [All_eq, List.mem_map]
  cases hr : s.sm.refMap k with
  | none =>
    rw [Get_of_not_ref s hr]
    constructor
    · intro hg
      simp at hg
    · rintro ⟨c, hc, hcv⟩
      exact absurd (congrArg Prod.fst hcv) (h.not_ref hr c hc)
  | some p =>
    obtain ⟨L1, L2, e, he, hk, _, hcells, hk1, hk2⟩ := cells_split h hr
    rw [Get_of_ref hr he, hcells]
    constructor
    · intro hg
      have hv : e.value = v := congrArg Prod.fst hg
      exact ⟨e, by simp, by rw [hk, hv]⟩
    · rintro ⟨c, hc, hcv⟩
      have hck : c.key = k := congrArg Prod.fst hcv
      have hcval : c.value = v := congrArg Prod.snd hcv
      simp only [List.mem_append, List.mem_cons] at hc
      rcases hc with hc | hc | hc
      · exact absurd hck (hk1 c hc)
      · rw [← hc, hcval]
      · exact absurd hck (hk2 c hc)

theorem Get_false_iff [Inhabited V] {s : State K V} (h : Inv s) (k : K) :
    Get s k = (default, false) ↔ ∀ v, (k, v) ∉ Seq2ToSlice (All s) := by
  cases hr : s.sm.refMap k with
  | none =>
    rw [Get_of_not_ref s hr]
    refine ⟨fun _ v hv => ?_, fun _ => rfl⟩
    have := (Get_true_iff h k v).2 hv
    rw [Get_of_not_ref s hr] at this
    simp at this
  | some p =>
    obtain ⟨L1, L2, e, he, hk, _, hcells, _, _⟩ := cells_split h hr
    have hg := Get_of_ref hr he
    constructor
    · intro hf
      rw [hg] at hf
      simp at hf
    · intro hall
      exact absurd ((Get_true_iff h k e.value).1 hg) (hall e.value)

theorem Get_cases [Inhabited V] (s : State K V) (k : K) :
    Get s k = (default, false) ∨ ∃ v, Get s k = (v, true) := by
  cases hr : s.sm.refMap k with
  | none => exact Or.inl (Get_of_not_ref s hr)
  | some p =>
    right
    cases he : deref s.mem p with
    | none => exact ⟨default, by simp [Get, hr, he]⟩
    | some e => exact ⟨e.value, Get_of_ref hr he⟩

theorem Get_eq_of_All_eq [Inhabited V] {s t : State K V} (hs : Inv s) (ht : Inv t)
    (h : Seq2ToSlice (All s) = Seq2ToSlice (All t)) (k : K) : Get s k = Get t k := by
  rcases Get_cases s k with hg | ⟨v, hg⟩
  · rw [hg]
    have := (Get_false_iff hs k).1 hg
    rw [h] at this
    exact ((Get_false_iff ht k).2 this).symm
  · rw [hg]
    have := (Get_true_iff hs k v).1 hg
    rw [h] at this
    exact ((Get_true_iff ht k v).2 this).symm

theorem Keys_eq_All (s : State K V) :
    SequenceToSlice (Keys s) = (Seq2ToSlice (All s)).map Prod.fst := by
  rw [Keys_eq, All_eq, List.map_map]
  rfl

theorem Values_eq_All (s : State K V) :
    SequenceToSlice (Values s) = (Seq2ToSlice (All s)).map Prod.snd := by
  rw [Values_eq, All_eq, List.map_map]
  rfl

theorem Len_eq_length_All {s : State K V} (h : Inv s) :
    Len s = ((Seq2ToSlice (All s)).length : Int) := by
  rw [All_eq, List.length_map]
  exact h.len_eq

/-! ## The code refines the specification view -/

theorem map_pair_filter_ne [DecidableEq K] {L : List (entry K V)} {k : K}
    (hL : ∀ c ∈ L, c.key ≠ k) :
    (L.map (fun e => (e.key, e.value))).filter (fun kv => decide (kv.1 ≠ k))
      = L.map (fun e => (e.key, e.value)) := by
  apply List.filter_eq_self.2
  intro kv hkv
  obtain ⟨c, hc, rfl⟩ := List.mem_map.1 hkv
  simpa using hL c hc

theorem map_pair_update_ne [DecidableEq K] {L : List (entry K V)} {k : K} (v : V)
    (hL : ∀ c ∈ L, c.key ≠ k) :
    (L.map (fun e => (e.key, e.value))).map (fun kv => if kv.1 = k then (k, v) else kv)
      = L.map (fun e => (e.key, e.value)) := by
  rw [List.map_map]
  apply List.map_congr_left
  intro c hc
  simp [hL c hc]

theorem All_Set [DecidableEq K] {s : State K V} (h : Inv s) (k : K) (v : V) :
    Seq2ToSlice (All (Set s k v)) = specSet (Seq2ToSlice (All s)) k v := by
  rw [All_eq, All_eq]
  cases hr : s.sm.refMap k with
  | none =>
    rw [cells_Set_new h hr]
    have hk : k ∉ ((liveCells s.mem s.sm.entries).map (fun e => (e.key, e.value))).map
        Prod.fst := by
      rw [List.map_map]
      intro hm
      obtain ⟨c, hc, hck⟩ := List.mem_map.1 hm
      exact h.not_ref hr c hc hck
    unfold specSet
    rw [if_neg hk, List.map_append]
    rfl
  | some p =>
    obtain ⟨L1, L2, e, _, hk, _, hcells, hcells2, hk1, hk2⟩ := cells_Set_live h hr v
    rw [hcells2, hcells]
    have hmem : k ∈ ((L1 ++ e :: L2).map (fun e => (e.key, e.value))).map Prod.fst := by
      simp [hk]
    unfold specSet
    rw [if_pos hmem, List.map_append, List.map_append, List.map_cons, List.map_cons,
      List.map_append, List.map_cons, map_pair_update_ne v hk1, map_pair_update_ne v hk2]
    simp [hk]

theorem All_Delete [DecidableEq K] [Inhabited V] {s s2 : State K V} (h : Inv s) {k : K}
    (hdel : Delete s k = some s2) :
    Seq2ToSlice (All s2) = specDelete (Seq2ToSlice (All s)) k := by
  rw [All_eq, All_eq]
  unfold specDelete
  cases hr : s.sm.refMap k with
  | none =>
    rw [Delete_of_not_ref s hr] at hdel
    injection hdel with hdel
    subst hdel
    exact (map_pair_filter_ne (h.not_ref hr)).symm
  | some p =>
    obtain ⟨s3, L1, L2, e, hdel3, _, hk, _, hcells, hcells2, hk1, hk2⟩ := cells_Delete h hr
    rw [hdel] at hdel3
    injection hdel3 with hdel3
    subst hdel3
    rw [hcells2, hcells, List.map_append, List.map_append, List.map_cons, List.filter_append,
      List.filter_cons, map_pair_filter_ne hk1, map_pair_filter_ne hk2]
    simp [hk]

theorem All_step [DecidableEq K] [Inhabited V] {s s2 : State K V} (h : Inv s) {op : Op K V}
    (hs : step s op = some s2) :
    Seq2ToSlice (All s2) = specStep (Seq2ToSlice (All s)) op := by
  cases op with
  | set k v =>
    simp only [step, Option.some.injEq] at hs
    subst hs
    exact All_Set h k v
  | delete k => exact All_Delete h hs
  | reset =>
    simp only [step, Option.some.injEq] at hs
    subst hs
    rw [All_eq]
    rfl

theorem Delete_isSome [DecidableEq K] [Inhabited V] {s : State K V} (h : Inv s) (k : K) :
    ∃ s2, Delete s k = some s2 := by
  cases hr : s.sm.refMap k with
  | none => exact ⟨s, Delete_of_not_ref s hr⟩
  | some p => exact ⟨_, Delete_of_ref h hr⟩

theorem step_isSome [DecidableEq K] [Inhabited V] {s : State K V} (h : Inv s) (op : Op K V) :
    ∃ s2, step s op = some s2 := by
  cases op with
  | set k v => exact ⟨_, rfl⟩
  | delete k => exact Delete_isSome h k
  | reset => exact ⟨_, rfl⟩

theorem run_spec [DecidableEq K] [Inhabited V] :
    ∀ (ops : List (Op K V)) {s : State K V}, Inv s →
      ∃ s2, run s ops = some s2 ∧ Inv s2 ∧
        Seq2ToSlice (All s2) = specRun (Seq2ToSlice (All s)) ops
  | [], s, h => ⟨s, rfl, h, rfl⟩
  | op :: ops, s, h => by
    obtain ⟨s1, hs1⟩ := step_isSome h op
    obtain ⟨s2, hr, hi, ha⟩ := run_spec ops (Inv_step h hs1)
    refine ⟨s2, ?_, hi, ?_⟩
    · simp only [run, hs1, Option.some_bind]
      exact hr
    · rw [ha, All_step h hs1]
      rfl

theorem run_append [DecidableEq K] [Inhabited V] :
    ∀ (ops ops2 : List (Op K V)) (s : State K V),
      run s (ops ++ ops2) = (run s ops).bind (fun s1 => run s1 ops2)
  | [], ops2, s => rfl
  | op :: ops, ops2, s => by
    simp only [run, List.cons_append]
    cases step s op with
    | none => rfl
    | some s1 => exact run_append ops ops2 s1

theorem Reachable_NewStableMap [DecidableEq K] [Inhabited V] (mem : List (entry K V)) :
    Reachable (NewStableMap mem) := ⟨mem, [], rfl⟩

theorem Reachable_step [DecidableEq K] [Inhabited V] {s s2 : State K V} (h : Reachable s)
    {op : Op K V} (hs : step s op = some s2) : Reachable s2 := by
  obtain ⟨mem, ops, hr⟩ := h
  refine ⟨mem, ops ++ [op], ?_⟩
  rw [run_append, hr]
  simp [run, hs]

theorem Reachable_Set [DecidableEq K] [Inhabited V] {s : State K V} (h : Reachable s)
    (k : K) (v : V) : Reachable (Set s k v) :=
  Reachable_step h (show step s (Op.set k v) = some (Set s k v) from rfl)

theorem Reachable_Delete [DecidableEq K] [Inhabited V] {s s2 : State K V} (h : Reachable s)
    {k : K} (hd : Delete s k = some s2) : Reachable s2 :=
  Reachable_step h (show step s (Op.delete k) = some s2 from hd)

theorem Reachable_Reset [DecidableEq K] [Inhabited V] {s : State K V} (h : Reachable s) :
    Reachable (Reset s) :=
  Reachable_step h (show step s (Op.reset : Op K V) = some (Reset s) from rfl)

/-! ## Facts about the specification view -/

theorem mem_specSet_self [DecidableEq K] (l : List (K × V)) (k : K) (v : V) :
    (k, v) ∈ specSet l k v := by
  unfold specSet
  split
  · rename_i hk
    obtain ⟨kv, hkv, hkk⟩ := List.mem_map.1 hk
    exact List.mem_map.2 ⟨kv, hkv, by simp [hkk]⟩
  · simp

theorem mem_specSet_other [DecidableEq K] (l : List (K × V)) {k j : K} (hj : j ≠ k)
    (v w : V) : (j, w) ∈ specSet l k v ↔ (j, w) ∈ l := by
  unfold specSet
  split
  · rw [List.mem_map]
    constructor
    · rintro ⟨kv, hkv, heq⟩
      by_cases hk : kv.1 = k
      · rw [if_pos hk] at heq
        exact absurd (congrArg Prod.fst heq).symm hj
      · rw [if_neg hk] at heq
        exact heq ▸ hkv
    · intro hm
      exact ⟨(j, w), hm, by simp [hj]⟩
  · simp [hj]

theorem mem_specDelete [DecidableEq K] (l : List (K × V)) (k j : K) (w : V) :
    (j, w) ∈ specDelete l k ↔ (j, w) ∈ l ∧ j ≠ k := by
  simp [specDelete, List.mem_filter]

theorem filter_ne_map_update [DecidableEq K] (k : K) (v : V) :
    ∀ l : List (K × V),
      (l.map (fun kv => if kv.1 = k then (k, v) else kv)).filter (fun kv => decide (kv.1 ≠ k))
        = l.filter (fun kv => decide (kv.1 ≠ k))
  | [] => rfl
  | a :: l => by
    have ih := filter_ne_map_update k v l
    by_cases ha : a.1 = k
    · rw [List.map_cons, if_pos ha, List.filter_cons, List.filter_cons, ih]
      simp [ha]
    · rw [List.map_cons, if_neg ha, List.filter_cons, List.filter_cons, ih]

theorem specDelete_specSet [DecidableEq K] (l : List (K × V)) (k : K) (v : V) :
    specDelete (specSet l k v) k = specDelete l k := by
  unfold specSet specDelete
  split
  · exact filter_ne_map_update k v l
  · simp [List.filter_append, List.filter_cons]

theorem not_mem_keys_specDelete [DecidableEq K] (l : List (K × V)) (k : K) :
    k ∉ (specDelete l k).map Prod.fst := by
  intro h
  obtain ⟨kv, hkv, hk⟩ := List.mem_map.1 h
  have := (List.mem_filter.1 hkv).2
  simp [hk] at this

theorem specSet_of_not_mem [DecidableEq K] {l : List (K × V)} {k : K}
    (h : k ∉ l.map Prod.fst) (v : V) : specSet l k v = l ++ [(k, v)] := by
  unfold specSet
  rw [if_neg h]

theorem keys_specSet_of_mem [DecidableEq K] {l : List (K × V)} {k : K}
    (h : k ∈ l.map Prod.fst) (v : V) : (specSet l k v).map Prod.fst = l.map Prod.fst := by
  unfold specSet
  rw [if_pos h, List.map_map]
  apply List.map_congr_left
  intro kv _
  by_cases hk : kv.1 = k <;> simp [hk]

theorem Get_eq_of_mem_iff [Inhabited V] {s t : State K V} (hs : Inv s) (ht : Inv t) (k : K)
    (h : ∀ v, (k, v) ∈ Seq2ToSlice (All s) ↔ (k, v) ∈ Seq2ToSlice (All t)) :
    Get s k = Get t k := by
  rcases Get_cases s k with hg | ⟨v, hg⟩
  · rw [hg]
    have := (Get_false_iff hs k).1 hg
    exact ((Get_false_iff ht k).2 (fun v hv => this v ((h v).2 hv))).symm
  · rw [hg]
    exact ((Get_true_iff ht k v).2 ((h v).1 ((Get_true_iff hs k v).1 hg))).symm

theorem found_iff_mem_keys [Inhabited V] {s : State K V} (h : Inv s) (k : K) :
    (Get s k).2 = true ↔ k ∈ (Seq2ToSlice (All s)).map Prod.fst := by
  constructor
  · intro hf
    rcases Get_cases s k with hg | ⟨v, hg⟩
    · rw [hg] at hf; cases hf
    · exact List.mem_map.2 ⟨(k, v), (Get_true_iff h k v).1 hg, rfl⟩
  · intro hm
    obtain ⟨⟨k2, v⟩, hkv, hk⟩ := List.mem_map.1 hm
    simp only at hk
    subst hk
    rw [(Get_true_iff h k2 v).2 hkv]

theorem exOneThree_reachable : Reachable exOneThree :=
  ⟨[], [Op.set 1 "one", Op.set 3 "three"], rfl⟩

theorem foldl_Set_spec [DecidableEq K] :
    ∀ (l : List (K × V)) {s : State K V}, Inv s → (l.map Prod.fst).Nodup →
      (∀ kv ∈ l, kv.1 ∉ (Seq2ToSlice (All s)).map Prod.fst) →
      Seq2ToSlice (All (l.foldl (fun t kv => Set t kv.1 kv.2) s)) = Seq2ToSlice (All s) ++ l
  | [], s, _, _, _ => by simp
  | kv :: l, s, h, hnd, hfresh => by
    rw [List.map_cons, List.nodup_cons] at hnd
    have hall : Seq2ToSlice (All (Set s kv.1 kv.2)) = Seq2ToSlice (All s) ++ [kv] := by
      rw [All_Set h, specSet_of_not_mem (hfresh kv (List.mem_cons_self kv l))]
    rw [List.foldl_cons, foldl_Set_spec l (Inv_Set h kv.1 kv.2) hnd.2, hall]
    · simp
    · intro kv2 hkv2
      rw [hall, List.map_append, List.mem_append]
      rintro (hm | hm)
      · exact hfresh kv2 (List.mem_cons_of_mem kv hkv2) hm
      · simp only [List.map_cons, List.map_nil, List.mem_singleton] at hm
        exact hnd.1 (hm ▸ List.mem_map_of_mem Prod.fst hkv2)

theorem eraseIdx_length_append {α : Type} (A : List α) (x : α) (B : List α) :
    (A ++ x :: B).eraseIdx A.length = A ++ B := by
  rw [List.eraseIdx_append_of_length_le (Nat.le_refl _)]
  simp

theorem getElem?_length_append {α : Type} (A : List α) (x : α) (B : List α) :
    (A ++ x :: B)[A.length]? = some x := by
  rw [List.getElem?_append_right (Nat.le_refl _)]
  simp

theorem keys_specDelete [DecidableEq K] (l : List (K × V)) (k : K) :
    (specDelete l k).map Prod.fst = (l.map Prod.fst).filter (fun j => decide (j ≠ k)) := by
  unfold specDelete
  rw [List.filter_map]
  rfl

/-- The compaction branch of `delete()` is reachable: for every `n` below the
threshold there is a reachable state with `n` tombstones in which a given key
is absent from the index. -/
theorem reachable_tombstones [DecidableEq K] [Inhabited V] (k : K) :
    ∀ n : Nat, n < 100000 →
      ∃ s : State K V, Reachable s ∧ s.sm.deleted = (n : Int) ∧ s.sm.refMap k = none
  | 0, _ => ⟨NewStableMap [], Reachable_NewStableMap [], rfl, rfl⟩
  | n + 1, hn => by
    obtain ⟨s, hs, hd, hr⟩ := reachable_tombstones k n (Nat.lt_of_succ_lt hn)
    have hs1 : Reachable (Set s k default) := Reachable_Set hs k default
    have hr1 : (Set s k default).sm.refMap k = some s.mem.length := by
      rw [Set_of_not_ref s hr]
      simp
    have hd1 : (Set s k default).sm.deleted = (n : Int) := by
      rw [Set_of_not_ref s hr]
      exact hd
    have hdel := Delete_of_ref (Inv_of_Reachable hs1) hr1
    refine ⟨_, Reachable_Delete hs1 hdel, ?_, ?_⟩
    · have hlt : ¬ ((n : Int) + 1 ≥ 100000) := by omega
      simp only [hd1, hlt, if_false]
      push_cast
      rfl
    · simp

/-- A reachable state in which deleting a live key runs the compaction pass. -/
theorem compaction_reachable [DecidableEq K] [Inhabited V] (k : K) :
    ∃ s : State K V, Reachable s ∧ (Get s k).2 = true ∧ s.sm.deleted + 1 ≥ 100000 := by
  obtain ⟨s, hs, hd, hr⟩ := reachable_tombstones (V := V) k 99999 (by decide)
  refine ⟨Set s k default, Reachable_Set hs k default, ?_, ?_⟩
  · rw [Set_of_not_ref s hr]
    simp [Get, deref]
  · rw [Set_of_not_ref s hr]
    show s.sm.deleted + 1 ≥ 100000
    rw [hd]
    decide

/-! ## The repository's tests, run on the embedding -/

/-- The assertions of `TestStableMap_Reset` hold on the embedding. -/
theorem test_StableMap_Reset :
    (Get (NewStableMap ([] : List (entry Nat String))) 1).2 = false ∧
    (Get (Set (NewStableMap []) 1 "one") 1).2 = true ∧
    SequenceToSlice (Values exOneThree) = ["one", "three"] ∧
    (Get (Reset exOneThree) 1).2 = false ∧
    (Get (Reset exOneThree) 3).2 = false ∧
    SequenceToSlice (Values (Set (Set (Reset exOneThree) 3 "three") 1 "one"))
      = ["three", "one"] := by
  decide

/-- The assertions of `TestStableMap_Delete` hold on the embedding. -/
theorem test_StableMap_Delete :
    Len (NewStableMap ([] : List (entry Nat String))) = 0 ∧
    Len (Set (NewStableMap []) 1 "one") = 1 ∧
    Len exOneThree = 2 ∧
    SequenceToSlice (Values exOneThree) = ["one", "three"] ∧
    Get exOneThree 1 = ("one", true) ∧
    (Delete exOneThree 1).map (fun t => (Get t 1, Len t, SequenceToSlice (Values t)))
      = some (("", false), 1, ["three"]) ∧
    (Delete exOneThree 1).map
        (fun t => (Len (Set t 1 "ONE"), SequenceToSlice (Values (Set t 1 "ONE"))))
      = some (2, ["three", "ONE"]) := by
  decide

/-! ## The claims -/

/-- C1: in every state reachable from `NewStableMap` by `Set`, `Delete` and
`Reset`, and for every key `k`, `Get(k)` returns `(v, true)` exactly when
`All()` yields the pair `(k, v)`, and returns `(zero, false)` exactly when
`All()` yields no pair with key `k`. -/
theorem C1_Get_agrees_with_All [DecidableEq K] [Inhabited V] (s : State K V)
    (hs : Reachable s) (k : K) :
    (∀ v, Get s k = (v, true) ↔ (k, v) ∈ Seq2ToSlice (All s)) ∧
    (Get s k = (default, false) ↔ ∀ v, (k, v) ∉ Seq2ToSlice (All s)) :=
  ⟨Get_true_iff (Inv_of_Reachable hs) k, Get_false_iff (Inv_of_Reachable hs) k⟩

theorem C1_witness :
    Reachable exOneThree ∧
      (Get exOneThree 1 = ("one", true) ↔ (1, "one") ∈ Seq2ToSlice (All exOneThree)) :=
  ⟨exOneThree_reachable, (C1_Get_agrees_with_All exOneThree exOneThree_reachable 1).1 "one"⟩

/-- C2: for every list of pairs with pairwise distinct keys, calling `Set` on
them in order on a map from `NewStableMap` makes `Values()` yield exactly the
values and `Keys()` exactly the keys, in that order. -/
theorem C2_order_preservation [DecidableEq K] (mem : List (entry K V)) (l : List (K × V))
    (hl : (l.map Prod.fst).Nodup) :
    SequenceToSlice (Values (l.foldl (fun t kv => Set t kv.1 kv.2) (NewStableMap mem)))
      = l.map Prod.snd ∧
    SequenceToSlice (Keys (l.foldl (fun t kv => Set t kv.1 kv.2) (NewStableMap mem)))
      = l.map Prod.fst := by
  have h := foldl_Set_spec l (Inv_NewStableMap mem) hl (by
    intro kv _
    rw [All_eq]
    exact List.not_mem_nil _)
  have h0 : Seq2ToSlice (All (NewStableMap mem)) = [] := by rw [All_eq]; rfl
  rw [h0, List.nil_append] at h
  rw [Values_eq_All, Keys_eq_All, h]
  exact ⟨rfl, rfl⟩

theorem C2_witness :
    ([(1, "one"), (3, "three")].map Prod.fst).Nodup ∧
      SequenceToSlice (Values
        ([(1, "one"), (3, "three")].foldl (fun t kv => Set t kv.1 kv.2) (NewStableMap [])))
        = ["one", "three"] ∧
      SequenceToSlice (Keys
        ([(1, "one"), (3, "three")].foldl (fun t kv => Set t kv.1 kv.2) (NewStableMap [])))
        = [1, 3] :=
  ⟨by decide, C2_order_preservation [] [(1, "one"), (3, "three")] (by decide)⟩

/-- C3: update in place.  In every reachable state and for every live key `k`,
`Set(k, v2)` makes `Get(k)` return `(v2, true)`, leaves `Keys()` the same
sequence (no entry is appended), leaves `Len()` unchanged and leaves the value
of every other key unchanged. -/
theorem C3_update_in_place [DecidableEq K] [Inhabited V] (s : State K V) (hs : Reachable s)
    (k : K) (v2 : V) (hk : (Get s k).2 = true) :
    Get (Set s k v2) k = (v2, true) ∧
    SequenceToSlice (Keys (Set s k v2)) = SequenceToSlice (Keys s) ∧
    (Set s k v2).sm.entries = s.sm.entries ∧
    Len (Set s k v2) = Len s ∧
    ∀ j, j ≠ k → Get (Set s k v2) j = Get s j := by
  have h := Inv_of_Reachable hs
  have h2 := Inv_Set h k v2
  obtain ⟨p, hr⟩ := ref_of_found hk
  have hall := All_Set h k v2
  refine ⟨?_, ?_, ?_, ?_, ?_⟩
  · rw [Get_true_iff h2, hall]
    exact mem_specSet_self _ k v2
  · rw [Keys_eq_All, Keys_eq_All, hall]
    exact keys_specSet_of_mem ((found_iff_mem_keys h k).1 hk) v2
  · rw [Set_of_ref h hr]
  · rw [Set_of_ref h hr]
    rfl
  · intro j hj
    apply Get_eq_of_mem_iff h2 h
    intro w
    rw [hall]
    exact mem_specSet_other _ hj v2 w

theorem C3_witness :
    Reachable exOneThree ∧ (Get exOneThree 1).2 = true ∧
      Get (Set exOneThree 1 "uno") 1 = ("uno", true) ∧
      SequenceToSlice (Keys (Set exOneThree 1 "uno")) = SequenceToSlice (Keys exOneThree) ∧
      (Set exOneThree 1 "uno").sm.entries = exOneThree.sm.entries ∧
      Len (Set exOneThree 1 "uno") = Len exOneThree ∧
      ∀ j, j ≠ 1 → Get (Set exOneThree 1 "uno") j = Get exOneThree j :=
  ⟨exOneThree_reachable, by decide,
    C3_update_in_place exOneThree exOneThree_reachable 1 "uno" (by decide)⟩

/-- C5: delete visibility.  In every reachable state and for every live key
`k`, `Delete(k)` returns, and afterwards `Get(k)` is `(zero, false)`, `Len()` is
exactly 1 less, `k` does not occur in `Keys()`, no pair of `k` occurs in `All()`,
and `Keys()` and `Values()` are the previous sequences with the element at the
position of `k` removed (the value of the entry of `k` is no longer yielded). -/
theorem C5_delete_visibility [DecidableEq K] [Inhabited V] (s : State K V) (hs : Reachable s)
    (k : K) (hk : (Get s k).2 = true) :
    ∃ s2, Delete s k = some s2 ∧
      Get s2 k = (default, false) ∧
      Len s2 = Len s - 1 ∧
      k ∉ SequenceToSlice (Keys s2) ∧
      (∀ v, (k, v) ∉ Seq2ToSlice (All s2)) ∧
      ∃ i, (SequenceToSlice (Keys s))[i]? = some k ∧
        SequenceToSlice (Keys s2) = (SequenceToSlice (Keys s)).eraseIdx i ∧
        SequenceToSlice (Values s2) = (SequenceToSlice (Values s)).eraseIdx i := by
  have h := Inv_of_Reachable hs
  obtain ⟨p, hr⟩ := ref_of_found hk
  obtain ⟨s2, L1, L2, e, hdel, _, hke, _, hcells, hcells2, hk1, hk2⟩ := cells_Delete h hr
  have h2 := Inv_Delete h hdel
  have hnot : ∀ v, (k, v) ∉ Seq2ToSlice (All s2) := by
    intro v hv
    rw [All_eq, hcells2, List.mem_map] at hv
    obtain ⟨c, hc, hcv⟩ := hv
    have hck : c.key = k := congrArg Prod.fst hcv
    rcases List.mem_append.1 hc with hc | hc
    · exact hk1 c hc hck
    · exact hk2 c hc hck
  refine ⟨s2, hdel, (Get_false_iff h2 k).2 hnot, ?_, ?_, hnot, L1.length, ?_, ?_, ?_⟩
  · show s2.sm.len = s.sm.len - 1
    rw [h2.len_eq, h.len_eq, hcells, hcells2]
    simp only [List.length_append, List.length_cons]
    push_cast
    omega
  · rw [Keys_eq_All]
    intro hm
    obtain ⟨⟨k2, v⟩, hkv, hk2⟩ := List.mem_map.1 hm
    simp only at hk2
    subst hk2
    exact hnot v hkv
  · rw [Keys_eq, hcells, List.map_append, List.map_cons, hke]
    have := getElem?_length_append (L1.map (fun e => e.key)) k (L2.map (fun e => e.key))
    rwa [List.length_map] at this
  · rw [Keys_eq, Keys_eq, hcells, hcells2, List.map_append, List.map_append, List.map_cons]
    have := eraseIdx_length_append (L1.map (fun e => e.key)) e.key (L2.map (fun e => e.key))
    rw [List.length_map] at this
    exact this.symm
  · rw [Values_eq, Values_eq, hcells, hcells2, List.map_append, List.map_append, List.map_cons]
    have := eraseIdx_length_append (L1.map (fun e => e.value)) e.value
      (L2.map (fun e => e.value))
    rw [List.length_map] at this
    exact this.symm

theorem C5_witness :
    Reachable exOneThree ∧ (Get exOneThree 1).2 = true ∧
      ∃ s2, Delete exOneThree 1 = some s2 ∧
        Get s2 1 = ("", false) ∧
        Len s2 = Len exOneThree - 1 ∧
        1 ∉ SequenceToSlice (Keys s2) ∧
        (∀ v, (1, v) ∉ Seq2ToSlice (All s2)) ∧
        ∃ i, (SequenceToSlice (Keys exOneThree))[i]? = some 1 ∧
          SequenceToSlice (Keys s2) = (SequenceToSlice (Keys exOneThree)).eraseIdx i ∧
          SequenceToSlice (Values s2) = (SequenceToSlice (Values exOneThree)).eraseIdx i :=
  ⟨exOneThree_reachable, by decide,
    C5_delete_visibility exOneThree exOneThree_reachable 1 (by decide)⟩

/-- C6: compaction transparency.  In every reachable state and for every live
key `k`, `All()` after `Delete(k)` is `All()` before with only the pair of `k`
removed, and `Get(j)` is unchanged for every other key `j`; this holds on the
path that only flags the entry (`entries` is kept) and on the path that runs
the compaction pass (`entries` becomes its non-deleted pointers). -/
theorem C6_compaction_transparency [DecidableEq K] [Inhabited V] (s : State K V)
    (hs : Reachable s) (k : K) (hk : (Get s k).2 = true) :
    ∃ s2, Delete s k = some s2 ∧
      (∃ A B v, Seq2ToSlice (All s) = A ++ (k, v) :: B ∧ Seq2ToSlice (All s2) = A ++ B) ∧
      Seq2ToSlice (All s2) = (Seq2ToSlice (All s)).filter (fun kv => decide (kv.1 ≠ k)) ∧
      (∀ j, j ≠ k → Get s2 j = Get s j) ∧
      (s.sm.deleted + 1 < 100000 → s2.sm.entries = s.sm.entries) ∧
      (s.sm.deleted + 1 ≥ 100000 → s2.sm.entries = s.sm.entries.filter (isLive s2.mem)) := by
  have h := Inv_of_Reachable hs
  obtain ⟨p, hr⟩ := ref_of_found hk
  obtain ⟨s2, L1, L2, e, hdel, _, hke, _, hcells, hcells2, _, _⟩ := cells_Delete h hr
  have h2 := Inv_Delete h hdel
  have hall := All_Delete h hdel
  refine ⟨s2, hdel, ⟨L1.map (fun e => (e.key, e.value)), L2.map (fun e => (e.key, e.value)),
    e.value, ?_, ?_⟩, hall, ?_, ?_, ?_⟩
  · rw [All_eq, hcells, List.map_append, List.map_cons, hke]
  · rw [All_eq, hcells2, List.map_append]
  · intro j hj
    apply Get_eq_of_mem_iff h2 h
    intro w
    rw [hall, mem_specDelete]
    exact ⟨fun hm => hm.1, fun hm => ⟨hm, hj⟩⟩
  · intro hlt
    have hd2 := Delete_of_ref h hr
    rw [hdel] at hd2
    injection hd2 with hd2
    subst hd2
    simp [not_le.2 hlt]
  · intro hge
    have hd2 := Delete_of_ref h hr
    rw [hdel] at hd2
    injection hd2 with hd2
    subst hd2
    simp only [hge, if_true]

theorem C6_witness :
    Reachable exOneThree ∧ (Get exOneThree 1).2 = true ∧
      ∃ s2, Delete exOneThree 1 = some s2 ∧
        (∃ A B v, Seq2ToSlice (All exOneThree) = A ++ (1, v) :: B ∧
          Seq2ToSlice (All s2) = A ++ B) ∧
        Seq2ToSlice (All s2)
          = (Seq2ToSlice (All exOneThree)).filter (fun kv => decide (kv.1 ≠ 1)) ∧
        (∀ j, j ≠ 1 → Get s2 j = Get exOneThree j) ∧
        (exOneThree.sm.deleted + 1 < 100000 → s2.sm.entries = exOneThree.sm.entries) ∧
        (exOneThree.sm.deleted + 1 ≥ 100000 →
          s2.sm.entries = exOneThree.sm.entries.filter (isLive s2.mem)) :=
  ⟨exOneThree_reachable, by decide,
    C6_compaction_transparency exOneThree exOneThree_reachable 1 (by decide)⟩

/-- C7: `Delete` of an absent key is a no-op.  In every reachable state and for
every key `k` that is not live, `Delete(k)` returns the state unchanged
(memory, backing sequence, index and both counters; no compaction); and for
every key, `Delete(k); Delete(k)` has the same effect as a single `Delete(k)`. -/
theorem C7_delete_absent_noop [DecidableEq K] [Inhabited V] (s : State K V) (hs : Reachable s)
    (k : K) :
    ((Get s k).2 = false → Delete s k = some s) ∧
    (Delete s k).bind (fun t => Delete t k) = Delete s k ∧
    (Delete s k).isSome = true := by
  have h := Inv_of_Reachable hs
  refine ⟨fun hk => Delete_of_not_ref s (not_ref_of_not_found hk), ?_, ?_⟩
  · cases hr : s.sm.refMap k with
    | none =>
      rw [Delete_of_not_ref s hr, Option.some_bind, Delete_of_not_ref s hr]
    | some p =>
      rw [Delete_of_ref h hr, Option.some_bind]
      apply Delete_of_not_ref
      simp
  · obtain ⟨s2, hs2⟩ := Delete_isSome h k
    rw [hs2]
    rfl

theorem C7_witness :
    Reachable exOneThree ∧ (Get exOneThree 7).2 = false ∧
      Delete exOneThree 7 = some exOneThree ∧
      (Delete exOneThree 1).bind (fun t => Delete t 1) = Delete exOneThree 1 :=
  ⟨exOneThree_reachable, by decide,
    (C7_delete_absent_noop exOneThree exOneThree_reachable 7).1 (by decide),
    (C7_delete_absent_noop exOneThree exOneThree_reachable 1).2.1⟩

/-- C9: `Reset` returns the map to its initial empty state regardless of
history.  After `Reset()` in any state, `Len()` is 0, `Get` reports not found
for every key, `All()`, `Keys()` and `Values()` are empty, the tombstone count
is 0, the state is the one `NewStableMap` creates, and every later sequence of
operations returns and gives the same `All()`, `Keys()`, `Values()`, `Len()`
and `Get` as on a fresh map. -/
theorem C9_reset_to_initial [DecidableEq K] [Inhabited V] (s : State K V) :
    Len (Reset s) = 0 ∧
    (∀ k, Get (Reset s) k = (default, false)) ∧
    Seq2ToSlice (All (Reset s)) = [] ∧
    SequenceToSlice (Keys (Reset s)) = [] ∧
    SequenceToSlice (Values (Reset s)) = [] ∧
    (Reset s).sm.deleted = 0 ∧
    Reset s = NewStableMap s.mem ∧
    (Reset s).sm = (NewStableMap ([] : List (entry K V))).sm ∧
    ∀ ops : List (Op K V), ∃ t1 t2,
      run (Reset s) ops = some t1 ∧ run (NewStableMap ([] : List (entry K V))) ops = some t2 ∧
      Seq2ToSlice (All t1) = Seq2ToSlice (All t2) ∧
      SequenceToSlice (Keys t1) = SequenceToSlice (Keys t2) ∧
      SequenceToSlice (Values t1) = SequenceToSlice (Values t2) ∧
      Len t1 = Len t2 ∧
      ∀ k, Get t1 k = Get t2 k := by
  refine ⟨rfl, fun k => rfl, ?_, ?_, ?_, rfl, rfl, rfl, ?_⟩
  · rw [All_eq]; rfl
  · rw [Keys_eq]; rfl
  · rw [Values_eq]; rfl
  · intro ops
    obtain ⟨t1, hr1, hi1, ha1⟩ := run_spec ops (Inv_Reset s)
    obtain ⟨t2, hr2, hi2, ha2⟩ := run_spec ops (Inv_NewStableMap ([] : List (entry K V)))
    have h0 : Seq2ToSlice (All (Reset s))
        = Seq2ToSlice (All (NewStableMap ([] : List (entry K V)))) := by
      rw [All_eq, All_eq]; rfl
    have hall : Seq2ToSlice (All t1) = Seq2ToSlice (All t2) := by
      rw [ha1, ha2, h0]
    refine ⟨t1, t2, hr1, hr2, hall, ?_, ?_, ?_, ?_⟩
    · rw [Keys_eq_All, Keys_eq_All, hall]
    · rw [Values_eq_All, Values_eq_All, hall]
    · rw [Len_eq_length_All hi1, Len_eq_length_All hi2, hall]
    · exact Get_eq_of_All_eq hi1 hi2 hall

/-- C10: in every reachable state `Len()` is the number of entries of the
backing sequence whose deleted flag is false (every pointer of the sequence
refers to an allocated cell), which is the number of elements `All()` yields;
in particular `Len()` is never negative. -/
theorem C10_Len_counts_live [DecidableEq K] [Inhabited V] (s : State K V) (hs : Reachable s) :
    Len s = (((s.sm.entries.filterMap (deref s.mem)).countP (fun e => !e.deleted) : Nat) : Int) ∧
    (∀ p ∈ s.sm.entries, ∃ e, deref s.mem p = some e) ∧
    Len s = (((Seq2ToSlice (All s)).length : Nat) : Int) ∧
    0 ≤ Len s := by
  have h := Inv_of_Reachable hs
  refine ⟨?_, ?_, Len_eq_length_All h, ?_⟩
  · rw [List.countP_eq_length_filter]
    exact h.len_eq
  · intro p hp
    have hlt := h.valid p hp
    exact ⟨s.mem[p], by simp [deref, List.getElem?_eq_getElem hlt]⟩
  · rw [Len_eq_length_All h]
    exact Int.natCast_nonneg _

theorem C10_witness :
    Reachable exOneThree ∧
      Len exOneThree
        = (((exOneThree.sm.entries.filterMap (deref exOneThree.mem)).countP
            (fun e => !e.deleted) : Nat) : Int) ∧
      (∀ p ∈ exOneThree.sm.entries, ∃ e, deref exOneThree.mem p = some e) ∧
      Len exOneThree = (((Seq2ToSlice (All exOneThree)).length : Nat) : Int) ∧
      0 ≤ Len exOneThree :=
  ⟨exOneThree_reachable, C10_Len_counts_live exOneThree exOneThree_reachable⟩

/-! ## Iteration: lazy views and early termination -/

theorem rangeEntries_feed {σ α : Type} (mem : List (entry K V)) (f : entry K V → α)
    (y : σ → α → σ × Bool) :
    ∀ (ps : List Nat) (acc : σ),
      rangeEntries mem (fun a e => y a (f e)) ps acc
        = feed y ((liveCells mem ps).map f) acc
  | [], acc => by simp [rangeEntries, liveCells_nil, feed]
  | p :: ps, acc => by
    cases h : deref mem p with
    | none =>
      simp only [rangeEntries, h, liveCells_cons_none h]
      exact rangeEntries_feed mem f y ps acc
    | some e =>
      cases hd : e.deleted with
      | true =>
        simp only [rangeEntries, h, liveCells_cons_some h, hd, if_true]
        exact rangeEntries_feed mem f y ps acc
      | false =>
        simp only [rangeEntries, h, liveCells_cons_some h, hd, List.map_cons, feed]
        cases hy : (y acc (f e)).2 with
        | true =>
          simp only [if_true]
          exact rangeEntries_feed mem f y ps _
        | false => simp

theorem feed_stopAt {α : Type} (n : Nat) :
    ∀ (xs acc : List α), acc.length < n →
      feed (stopAt n) xs acc = acc ++ xs.take (n - acc.length)
  | [], acc, _ => by simp [feed]
  | x :: xs, acc, h => by
    by_cases hlt : acc.length + 1 < n
    · have hlen : (acc ++ [x]).length < n := by simpa using hlt
      have ih := feed_stopAt n xs (acc ++ [x]) hlen
      simp only [feed, stopAt, hlt, decide_True, if_true]
      have ih2 : feed (stopAt n) xs (acc ++ [x])
          = acc ++ [x] ++ xs.take (n - (acc.length + 1)) := by
        simpa using ih
      rw [ih2]
      have hn : n - acc.length = (n - (acc.length + 1)) + 1 := by omega
      rw [hn, List.take_succ_cons]
      simp
    · have hn : n - acc.length = 0 + 1 := by omega
      simp only [feed, stopAt, hlt, decide_False, Bool.false_eq_true, if_false]
      rw [hn, List.take_succ_cons]
      simp

theorem feed_collect {α : Type} :
    ∀ (xs acc : List α), feed (fun a v => (a ++ [v], true)) xs acc = acc ++ xs
  | [], acc => by simp [feed]
  | x :: xs, acc => by
    simp only [feed, if_true]
    rw [feed_collect xs (acc ++ [x])]
    simp

theorem keys_nodup_of_live_ref {mem : List (entry K V)} {R : K → Option Nat} :
    ∀ {ps : List Nat}, ps.Nodup →
      (∀ q ∈ ps, ∀ c, deref mem q = some c → c.deleted = false → R c.key = some q) →
      ((liveCells mem ps).map (fun e => e.key)).Nodup
  | [], _, _ => by simp [liveCells_nil]
  | p :: ps, hnd, hl => by
    have hnd2 := List.nodup_cons.1 hnd
    have ih := keys_nodup_of_live_ref hnd2.2
      (fun q hq => hl q (List.mem_cons_of_mem p hq))
    cases h : deref mem p with
    | none => rw [liveCells_cons_none h]; exact ih
    | some e =>
      cases hd : e.deleted with
      | true =>
        rw [liveCells_cons_some h, hd]
        exact ih
      | false =>
        rw [liveCells_cons_some h, hd]
        simp only [Bool.false_eq_true, if_false, List.map_cons]
        refine List.nodup_cons.2 ⟨?_, ih⟩
        intro hm
        obtain ⟨c, hc, hck⟩ := List.mem_map.1 hm
        obtain ⟨q, hq, hqc, hqd⟩ := mem_liveCells.1 hc
        have h1 := hl q (List.mem_cons_of_mem p hq) c hqc hqd
        have h2 := hl p (List.mem_cons_self p ps) e h hd
        have hck2 : c.key = e.key := hck
        rw [hck2, h2] at h1
        injection h1 with h1
        exact hnd2.1 (h1 ▸ hq)

theorem Inv.keys_nodup {s : State K V} (h : Inv s) :
    (SequenceToSlice (Keys s)).Nodup := by
  rw [Keys_eq]
  exact keys_nodup_of_live_ref h.nodup h.live_ref

theorem countP_live_key [DecidableEq K] (L : List (entry K V)) (k : K) :
    L.countP (fun e => !e.deleted && decide (e.key = k))
      = ((L.filter (fun e => !e.deleted)).map (fun e => e.key)).count k := by
  induction L with
  | nil => rfl
  | cons e L ih =>
    cases hd : e.deleted <;> by_cases hk : e.key = k <;>
      simp [List.countP_cons, List.filter_cons, List.count_cons, hd, hk, ih]

/-- C11 (as stated, refuted): a sequence obtained from the map in the state
after `Set(1, "one"); Set(3, "three")` and consumed after a later `Set(7, "seven")`
yields the pair added after the call, and one consumed after a later `Delete(1)`
no longer yields the key that was live at the time of the call. -/
theorem C11_counterexample :
    Reachable exOneThree ∧ (Get exOneThree 7).2 = false ∧ (Get exOneThree 1).2 = true ∧
    Seq2ToSlice (All exOneThree) = [(1, "one"), (3, "three")] ∧
    Seq2ToSlice (callAll exOneThree (Set exOneThree 7 "seven"))
      = [(1, "one"), (3, "three"), (7, "seven")] ∧
    Seq2ToSlice (callAll exOneThree (Set exOneThree 7 "seven"))
      ≠ Seq2ToSlice (All exOneThree) ∧
    SequenceToSlice (Keys exOneThree) = [1, 3] ∧
    (Delete exOneThree 1).map (fun t => SequenceToSlice (callKeys exOneThree t))
      = some [3] ∧
    (Delete exOneThree 1).map (fun t => SequenceToSlice (callKeys exOneThree t))
      ≠ some (SequenceToSlice (Keys exOneThree)) :=
  ⟨exOneThree_reachable, by decide, by decide, by decide, by decide, by decide, by decide,
    by decide, by decide⟩

/-- C11 (amended): a sequence obtained from `All()`, `Keys()` or `Values()` is a
lazy view that reads the map when it is consumed.  Consumed in a state `t` it
yields the elements live in `t`; so after a `Set` of a new key it yields the
previous elements followed by the new one, after a `Delete` of a live key it
yields the previous elements without the removed one, and with no mutation
in between it yields the elements live at the time of the call. -/
theorem C11_lazy_views [DecidableEq K] [Inhabited V] (s : State K V) (hs : Reachable s)
    (k : K) :
    (∀ t, callAll s t = All t ∧ callKeys s t = Keys t ∧ callValues s t = Values t) ∧
    Seq2ToSlice (callAll s s) = Seq2ToSlice (All s) ∧
    (∀ v, (Get s k).2 = false →
      Seq2ToSlice (callAll s (Set s k v)) = Seq2ToSlice (All s) ++ [(k, v)] ∧
      SequenceToSlice (callKeys s (Set s k v)) = SequenceToSlice (Keys s) ++ [k] ∧
      SequenceToSlice (callValues s (Set s k v)) = SequenceToSlice (Values s) ++ [v]) ∧
    ((Get s k).2 = true → ∃ s2, Delete s k = some s2 ∧
      Seq2ToSlice (callAll s s2)
        = (Seq2ToSlice (All s)).filter (fun kv => decide (kv.1 ≠ k)) ∧
      SequenceToSlice (callKeys s s2)
        = (SequenceToSlice (Keys s)).filter (fun j => decide (j ≠ k)) ∧
      SequenceToSlice (callValues s s2)
        = ((Seq2ToSlice (All s)).filter (fun kv => decide (kv.1 ≠ k))).map Prod.snd) := by
  have h := Inv_of_Reachable hs
  refine ⟨fun t => ⟨rfl, rfl, rfl⟩, rfl, ?_, ?_⟩
  · intro v hk
    have hnk : k ∉ (Seq2ToSlice (All s)).map Prod.fst := by
      intro hm
      rw [(found_iff_mem_keys h k).2 hm] at hk
      cases hk
    have hall : Seq2ToSlice (All (Set s k v)) = Seq2ToSlice (All s) ++ [(k, v)] := by
      rw [All_Set h, specSet_of_not_mem hnk]
    refine ⟨hall, ?_, ?_⟩
    · show SequenceToSlice (Keys (Set s k v)) = _
      rw [Keys_eq_All, Keys_eq_All, hall]
      simp
    · show SequenceToSlice (Values (Set s k v)) = _
      rw [Values_eq_All, Values_eq_All, hall]
      simp
  · intro hk
    obtain ⟨s2, hdel⟩ := Delete_isSome h k
    have hall : Seq2ToSlice (All s2) = specDelete (Seq2ToSlice (All s)) k :=
      All_Delete h hdel
    refine ⟨s2, hdel, hall, ?_, ?_⟩
    · show SequenceToSlice (Keys s2) = _
      rw [Keys_eq_All, hall, keys_specDelete, Keys_eq_All]
    · show SequenceToSlice (Values s2) = _
      rw [Values_eq_All, hall]
      rfl

theorem C11_witness :
    Reachable exOneThree ∧ (Get exOneThree 7).2 = false ∧
      Seq2ToSlice (callAll exOneThree (Set exOneThree 7 "seven"))
        = Seq2ToSlice (All exOneThree) ++ [(7, "seven")] :=
  ⟨exOneThree_reachable, by decide,
    ((C11_lazy_views exOneThree exOneThree_reachable 7).2.2.1 "seven" (by decide)).1⟩

/-- C12: in every reachable state each key has at most one non-deleted entry
in the backing sequence, so `Keys()` never yields the same key twice; deleted
entries with the same key may coexist with it (after
`Set(1, "one"); Delete(1); Set(1, "ONE")` the backing sequence holds a deleted
and a live entry of key 1). -/
theorem C12_one_live_entry_per_key [DecidableEq K] [Inhabited V] (s : State K V)
    (hs : Reachable s) :
    (∀ k, (s.sm.entries.filterMap (deref s.mem)).countP
        (fun e => !e.deleted && decide (e.key = k)) ≤ 1) ∧
    (SequenceToSlice (Keys s)).Nodup ∧
    (run (NewStableMap []) opsReinsert).map
        (fun t => (t.sm.entries.filterMap (deref t.mem)).map (fun e => (e.key, e.deleted)))
      = some [(1, true), (1, false)] := by
  have h := Inv_of_Reachable hs
  have hnd := h.keys_nodup
  refine ⟨?_, hnd, by decide⟩
  intro k
  rw [countP_live_key]
  rw [Keys_eq] at hnd
  exact List.nodup_iff_count_le_one.1 hnd k

theorem C12_witness :
    Reachable exOneThree ∧ (SequenceToSlice (Keys exOneThree)).Nodup :=
  ⟨exOneThree_reachable, (C12_one_live_entry_per_key exOneThree exOneThree_reachable).2.1⟩

/-- C13: early termination.  For every state and every `n ≥ 1`, a consumer
that returns `false` on its `n`-th call has been passed exactly the first `n`
elements of the tombstone-filtered sequence by `All()`, `Keys()` and `Values()`,
in order, and is not called again; a consumer that always returns `true` is
passed every live element once, in order, and the sequence ends.  For any
consumer the sequences behave as a loop over the list of live elements that
stops at the first `false`. -/
theorem C13_early_termination (s : State K V) (n : Nat) (hn : 1 ≤ n) :
    (Keys s (List K) (stopAt n) []
        = ((liveCells s.mem s.sm.entries).map (fun e => e.key)).take n ∧
      Values s (List V) (stopAt n) []
        = ((liveCells s.mem s.sm.entries).map (fun e => e.value)).take n ∧
      All s (List (K × V)) (stopAt2 n) []
        = ((liveCells s.mem s.sm.entries).map (fun e => (e.key, e.value))).take n) ∧
    (SequenceToSlice (Keys s) = (liveCells s.mem s.sm.entries).map (fun e => e.key) ∧
      SequenceToSlice (Values s) = (liveCells s.mem s.sm.entries).map (fun e => e.value) ∧
      Seq2ToSlice (All s) = (liveCells s.mem s.sm.entries).map (fun e => (e.key, e.value))) ∧
    (∀ (σ : Type) (y : σ → K → σ × Bool) (acc : σ),
      Keys s σ y acc = feed y (SequenceToSlice (Keys s)) acc) ∧
    (∀ (σ : Type) (y : σ → V → σ × Bool) (acc : σ),
      Values s σ y acc = feed y (SequenceToSlice (Values s)) acc) ∧
    (∀ (σ : Type) (y : σ → K → V → σ × Bool) (acc : σ),
      All s σ y acc = feed (fun a kv => y a kv.1 kv.2) (Seq2ToSlice (All s)) acc) := by
  refine ⟨⟨?_, ?_, ?_⟩, ⟨Keys_eq s, Values_eq s, All_eq s⟩, ?_, ?_, ?_⟩
  · show rangeEntries s.mem (fun a e => stopAt n a e.key) s.sm.entries [] = _
    rw [rangeEntries_feed s.mem (fun e => e.key) (stopAt n), feed_stopAt n _ [] hn]
    simp
  · show rangeEntries s.mem (fun a e => stopAt n a e.value) s.sm.entries [] = _
    rw [rangeEntries_feed s.mem (fun e => e.value) (stopAt n), feed_stopAt n _ [] hn]
    simp
  · show rangeEntries s.mem (fun a e => stopAt n a (e.key, e.value)) s.sm.entries [] = _
    rw [rangeEntries_feed s.mem (fun e => (e.key, e.value)) (stopAt n),
      feed_stopAt n _ [] hn]
    simp
  · intro σ y acc
    rw [Keys_eq]
    exact rangeEntries_feed s.mem (fun e => e.key) y s.sm.entries acc
  · intro σ y acc
    rw [Values_eq]
    exact rangeEntries_feed s.mem (fun e => e.value) y s.sm.entries acc
  · intro σ y acc
    rw [All_eq]
    exact rangeEntries_feed s.mem (fun e => (e.key, e.value)) (fun a kv => y a kv.1 kv.2)
      s.sm.entries acc

theorem C13_witness :
    1 ≤ 1 ∧ Keys exOneThree (List Nat) (stopAt 1) [] = [1] ∧
      Values exOneThree (List String) (stopAt 1) [] = ["one"] ∧
      All exOneThree (List (Nat × String)) (stopAt2 1) [] = [(1, "one")] :=
  ⟨by decide, (C13_early_termination exOneThree 1 (by decide)).1⟩

/-! ## Inserts in any serial order -/

theorem Inv_foldl_Set [DecidableEq K] :
    ∀ (l : List (K × V)) {s : State K V}, Inv s →
      Inv (l.foldl (fun t kv => Set t kv.1 kv.2) s)
  | [], _, h => h
  | kv :: l, _, h => Inv_foldl_Set l (Inv_Set h kv.1 kv.2)

/-- Whatever order the lock serialises them in, `Set` calls on pairwise
distinct keys of a fresh map are not lost: `Len()` is their number and every
key is retrievable with the value that was set. -/
theorem serialised_inserts_not_lost [DecidableEq K] [Inhabited V] (mem : List (entry K V))
    (l l2 : List (K × V)) (hl : (l.map Prod.fst).Nodup) (hp : l2.Perm l) :
    Len (l2.foldl (fun t kv => Set t kv.1 kv.2) (NewStableMap mem)) = (l.length : Int) ∧
    ∀ kv ∈ l, Get (l2.foldl (fun t kv => Set t kv.1 kv.2) (NewStableMap mem)) kv.1
      = (kv.2, true) := by
  have hnd2 : (l2.map Prod.fst).Nodup := ((hp.map Prod.fst).nodup_iff).2 hl
  have hi := Inv_foldl_Set l2 (Inv_NewStableMap mem)
  have h0 : Seq2ToSlice (All (NewStableMap mem)) = [] := by rw [All_eq]; rfl
  have hall := foldl_Set_spec l2 (Inv_NewStableMap mem) hnd2 (by
    intro kv _
    rw [h0]
    exact List.not_mem_nil _)
  rw [h0, List.nil_append] at hall
  refine ⟨?_, ?_⟩
  · rw [Len_eq_length_All hi, hall, hp.length_eq]
  · intro kv hkv
    rw [Get_true_iff hi, hall]
    exact hp.mem_iff.2 hkv

/-! ## The index and the history of operations -/

theorem isSome_refMap_Set [DecidableEq K] {s : State K V} (h : Inv s) (k : K) (v : V)
    (j : K) :
    ((Set s k v).sm.refMap j).isSome = (decide (j = k) || (s.sm.refMap j).isSome) := by
  cases hr : s.sm.refMap k with
  | some p =>
    rw [Set_of_ref h hr]
    by_cases hj : j = k
    · subst hj
      simp [hr]
    · simp [hj]
  | none =>
    rw [Set_of_not_ref s hr]
    by_cases hj : j = k
    · subst hj
      simp
    · simp [Function.update_noteq hj, hj]

theorem isSome_refMap_Delete [DecidableEq K] [Inhabited V] {s s2 : State K V} (h : Inv s)
    {k : K} (hdel : Delete s k = some s2) (j : K) :
    (s2.sm.refMap j).isSome = (!decide (j = k) && (s.sm.refMap j).isSome) := by
  cases hr : s.sm.refMap k with
  | some p =>
    rw [Delete_of_ref h hr] at hdel
    injection hdel with hdel
    subst hdel
    by_cases hj : j = k
    · subst hj
      simp
    · simp [Function.update_noteq hj, hj]
  | none =>
    rw [Delete_of_not_ref s hr] at hdel
    injection hdel with hdel
    subst hdel
    by_cases hj : j = k
    · subst hj
      simp [hr]
    · simp [hj]

theorem lastTouchingIsSet_concat [DecidableEq K] (ops : List (Op K V)) (op : Op K V) (k : K) :
    lastTouchingIsSet (ops ++ [op]) k
      = if op.touches k = true then op.isSet else lastTouchingIsSet ops k := by
  unfold lastTouchingIsSet
  by_cases ht : op.touches k = true
  · rw [List.filter_append, List.filter_cons_of_pos ht, List.filter_nil, List.getLast?_concat,
      if_pos ht]
  · rw [List.filter_append, List.filter_cons_of_neg ht, List.filter_nil, List.append_nil,
      if_neg ht]

theorem refMap_isSome_run [DecidableEq K] [Inhabited V] (mem : List (entry K V))
    (ops : List (Op K V)) :
    ∀ (s : State K V), run (NewStableMap mem) ops = some s →
      ∀ k, (s.sm.refMap k).isSome = lastTouchingIsSet ops k := by
  induction ops using List.reverseRecOn with
  | nil =>
    intro s hr k
    simp only [run, Option.some.injEq] at hr
    subst hr
    rfl
  | append_singleton ops op ih =>
    intro s hr k
    rw [run_append] at hr
    cases hr1 : run (NewStableMap mem) ops with
    | none => rw [hr1] at hr; cases hr
    | some s1 =>
      rw [hr1, Option.some_bind] at hr
      have hi := Inv_run ops (Inv_NewStableMap mem) hr1
      have ih1 := ih s1 hr1 k
      rw [lastTouchingIsSet_concat]
      cases op with
      | set j v =>
        simp only [run, step, Option.some_bind, Option.some.injEq] at hr
        subst hr
        rw [isSome_refMap_Set hi j v k, ih1]
        by_cases hjk : j = k
        · subst hjk
          simp [Op.touches, Op.isSet]
        · have hkj : ¬ k = j := fun hh => hjk hh.symm
          simp [Op.touches, hjk, hkj]
      | delete j =>
        simp only [run, step] at hr
        cases hd : Delete s1 j with
        | none => rw [hd] at hr; cases hr
        | some s2 =>
          rw [hd, Option.some_bind, Option.some.injEq] at hr
          subst hr
          rw [isSome_refMap_Delete hi hd k, ih1]
          by_cases hjk : j = k
          · subst hjk
            simp [Op.touches, Op.isSet]
          · have hkj : ¬ k = j := fun hh => hjk hh.symm
            simp [Op.touches, hjk, hkj]
      | reset =>
        simp only [run, step, Option.some_bind, Option.some.injEq] at hr
        subst hr
        simp [Op.touches, Op.isSet, Reset, init]

theorem filter_touches_eq_onKey [DecidableEq K] (k : K) (ops : List (Op K V))
    (hops : ∀ op ∈ ops, op ≠ Op.reset) :
    ops.filter (Op.touches k) = ops.filter (Op.onKey k) := by
  apply List.filter_congr
  intro op hop
  cases op with
  | set j v => rfl
  | delete j => rfl
  | reset => exact absurd rfl (hops _ hop)

theorem run_isSome [DecidableEq K] [Inhabited V] (mem : List (entry K V))
    (ops : List (Op K V)) : ∃ s, run (NewStableMap mem) ops = some s := by
  obtain ⟨s, hr, _, _⟩ := run_spec ops (Inv_NewStableMap mem)
  exact ⟨s, hr⟩

/-- C16: in every reachable state every entry referenced from the index has
`deleted == false`; so whenever `Set` finds its key in the index the guard
holds and `Set` updates in place, and the branch of `Set` that appends a new
entry is taken only for keys absent from the index. -/
theorem C16_index_points_to_live [DecidableEq K] [Inhabited V] (s : State K V)
    (hs : Reachable s) (k : K) (v : V) :
    (∀ p, s.sm.refMap k = some p →
      ∃ e, deref s.mem p = some e ∧ e.deleted = false ∧ e.key = k) ∧
    (∀ p, s.sm.refMap k = some p →
      Set s k v =
        { mem := s.mem.modify (fun e => { key := e.key, value := v, deleted := e.deleted }) p
          sm := s.sm }) ∧
    ((Set s k v).sm.entries ≠ s.sm.entries → s.sm.refMap k = none) ∧
    (s.sm.refMap k = none → (Set s k v).sm.entries = s.sm.entries ++ [s.mem.length]) := by
  have h := Inv_of_Reachable hs
  refine ⟨?_, fun p hr => Set_of_ref h hr v, ?_, ?_⟩
  · intro p hr
    obtain ⟨_, e, he, hk, hd⟩ := h.ref_live k p hr
    exact ⟨e, he, hd, hk⟩
  · intro hne
    cases hr : s.sm.refMap k with
    | none => rfl
    | some p =>
      exfalso
      apply hne
      rw [Set_of_ref h hr]
  · intro hr
    rw [Set_of_not_ref s hr]

theorem C16_witness :
    Reachable exOneThree ∧ exOneThree.sm.refMap 1 = some 0 ∧
      ∃ e, deref exOneThree.mem 0 = some e ∧ e.deleted = false ∧ e.key = 1 :=
  ⟨exOneThree_reachable, by decide,
    (C16_index_points_to_live exOneThree exOneThree_reachable 1 "uno").1 0 (by decide)⟩

/-! ## Counters and the compaction threshold -/

theorem length_filterMap_deref {mem : List (entry K V)} :
    ∀ {ps : List Nat}, (∀ p ∈ ps, p < mem.length) →
      (ps.filterMap (deref mem)).length = ps.length
  | [], _ => rfl
  | p :: ps, h => by
    have hp : p < mem.length := h p (List.mem_cons_self p ps)
    have hd : deref mem p = some mem[p] := by
      simp [deref, List.getElem?_eq_getElem hp]
    rw [List.filterMap_cons, hd]
    simp only [List.length_cons]
    rw [length_filterMap_deref (fun q hq => h q (List.mem_cons_of_mem p hq))]

theorem countP_deleted_add_live (L : List (entry K V)) :
    L.countP (fun e => e.deleted) + (L.filter (fun e => !e.deleted)).length = L.length := by
  induction L with
  | nil => rfl
  | cons e L ih =>
    cases hd : e.deleted
    · simp only [List.countP_cons, List.filter_cons, hd, Bool.not_false, if_true,
        Bool.false_eq_true, if_false, List.length_cons]
      omega
    · simp only [List.countP_cons, List.filter_cons, hd, Bool.not_true, if_true,
        Bool.false_eq_true, if_false, List.length_cons]
      omega

theorem Inv.deleted_eq {s : State K V} (h : Inv s) :
    s.sm.deleted
      = (((s.sm.entries.filterMap (deref s.mem)).countP (fun e => e.deleted) : Nat) : Int) := by
  have h1 := countP_deleted_add_live (s.sm.entries.filterMap (deref s.mem))
  rw [length_filterMap_deref h.valid] at h1
  have h2 := h.len_eq
  have h3 := h.total
  unfold liveCells at h2
  omega

theorem deleted_lt_step [DecidableEq K] [Inhabited V] {s s2 : State K V} (h : Inv s)
    (hb : s.sm.deleted < 100000) {op : Op K V} (hs : step s op = some s2) :
    s2.sm.deleted < 100000 := by
  cases op with
  | set k v =>
    simp only [step, Option.some.injEq] at hs
    subst hs
    cases hr : s.sm.refMap k with
    | some p => rw [Set_of_ref h hr]; exact hb
    | none => rw [Set_of_not_ref s hr]; exact hb
  | delete k =>
    cases hr : s.sm.refMap k with
    | none =>
      rw [show step s (Op.delete k) = Delete s k from rfl, Delete_of_not_ref s hr] at hs
      injection hs with hs
      subst hs
      exact hb
    | some p =>
      rw [show step s (Op.delete k) = Delete s k from rfl, Delete_of_ref h hr] at hs
      injection hs with hs
      subst hs
      by_cases hc : s.sm.deleted + 1 ≥ 100000
      · simp [hc]
      · simp only [hc, if_false]
        omega
  | reset =>
    simp only [step, Option.some.injEq] at hs
    subst hs
    show (0 : Int) < 100000
    decide

theorem deleted_lt_run [DecidableEq K] [Inhabited V] :
    ∀ (ops : List (Op K V)) {s s2 : State K V}, Inv s → s.sm.deleted < 100000 →
      run s ops = some s2 → s2.sm.deleted < 100000
  | [], s, s2, _, hb, hr => by
    simp only [run, Option.some.injEq] at hr
    exact hr ▸ hb
  | op :: ops, s, s2, h, hb, hr => by
    simp only [run] at hr
    cases hs : step s op with
    | none => rw [hs] at hr; cases hr
    | some s1 =>
      rw [hs] at hr
      exact deleted_lt_run ops (Inv_step h hs) (deleted_lt_step h hb hs) hr

theorem deleted_lt_of_Reachable [DecidableEq K] [Inhabited V] {s : State K V}
    (h : Reachable s) : s.sm.deleted < 100000 := by
  obtain ⟨mem, ops, hr⟩ := h
  exact deleted_lt_run ops (Inv_NewStableMap mem) (by show (0 : Int) < 100000; decide) hr

theorem Delete_eq_delete_markDeleted [DecidableEq K] [Inhabited V] (s : State K V) {k : K}
    {p : Nat} (hr : s.sm.refMap k = some p) :
    Delete s k = delete (markDeleted s k p) := by
  simp [Delete, hr, markDeleted]

/-- C17: in every reachable state the tombstone counter (field `deleted`)
equals the number of entries of the backing sequence whose deleted flag is
true. -/
theorem C17_deleted_counts_tombstones [DecidableEq K] [Inhabited V] (s : State K V)
    (hs : Reachable s) :
    s.sm.deleted
      = (((s.sm.entries.filterMap (deref s.mem)).countP (fun e => e.deleted) : Nat) : Int) ∧
    (s.sm.entries.filterMap (deref s.mem)).length = s.sm.entries.length :=
  ⟨(Inv_of_Reachable hs).deleted_eq, length_filterMap_deref (Inv_of_Reachable hs).valid⟩

theorem C17_witness :
    Reachable exOneThree ∧
      exOneThree.sm.deleted
        = (((exOneThree.sm.entries.filterMap (deref exOneThree.mem)).countP
            (fun e => e.deleted) : Nat) : Int) :=
  ⟨exOneThree_reachable, (C17_deleted_counts_tombstones exOneThree exOneThree_reachable).1⟩

theorem Inv.deleted_nonneg {s : State K V} (h : Inv s) : 0 ≤ s.sm.deleted := by
  rw [h.deleted_eq]
  exact Int.natCast_nonneg _

theorem length_compactLoop_markDeleted [DecidableEq K] [Inhabited V] {s : State K V}
    (h : Inv s) {k : K} {p : Nat} (hr : s.sm.refMap k = some p) :
    ((compactLoop (markDeleted s k p).mem (markDeleted s k p).sm.entries []).length : Int)
      = s.sm.len - 1 := by
  obtain ⟨l1, l2, e, hl, h1, h2, he, _, hd, _, _⟩ := h.split hr
  have hcells : liveCells (markDeleted s k p).mem s.sm.entries
      = liveCells s.mem l1 ++ liveCells s.mem l2 := by
    show liveCells (s.mem.modify _ p) s.sm.entries = _
    rw [hl, liveCells_modify_split _ _ h1 h2 he]
    simp
  have hlen := h.len_eq
  rw [hl, liveCells_split l1 l2 he hd] at hlen
  simp only [List.length_append, List.length_cons] at hlen
  push_cast at hlen
  rw [compactLoop_eq, List.nil_append]
  show (((s.sm.entries.filter (isLive (markDeleted s k p).mem)).length : Nat) : Int) = _
  rw [length_filter_isLive, hcells]
  simp only [List.length_append]
  push_cast
  omega

/-- C18: compaction threshold.  In every reachable state the tombstone count
is at least 0 and strictly below 100000 and the backing sequence holds at most
`Len() + 99999` entries.  `Delete` of a live key returns; when the tombstone
count before it is below 99999 it only flags the entry, the backing sequence is
kept and the count grows by one; when the count is 99999 the backing sequence
is replaced by exactly its non-deleted entries in their original order and
the count is reset to zero. -/
theorem C18_compaction_threshold [DecidableEq K] [Inhabited V] (s : State K V)
    (hs : Reachable s) :
    (0 ≤ s.sm.deleted ∧ s.sm.deleted < 100000 ∧
      (s.sm.entries.length : Int) ≤ Len s + 99999) ∧
    ∀ k, (Get s k).2 = true →
      ∃ s2, Delete s k = some s2 ∧
        (s.sm.deleted < 99999 →
          s2.sm.entries = s.sm.entries ∧ s2.sm.deleted = s.sm.deleted + 1) ∧
        (s.sm.deleted = 99999 →
          s2.sm.entries = s.sm.entries.filter (isLive s2.mem) ∧ s2.sm.deleted = 0) ∧
        (0 ≤ s2.sm.deleted ∧ s2.sm.deleted < 100000 ∧
          (s2.sm.entries.length : Int) ≤ Len s2 + 99999) := by
  have h := Inv_of_Reachable hs
  have hb := deleted_lt_of_Reachable hs
  have hbound : ∀ t : State K V, Reachable t →
      0 ≤ t.sm.deleted ∧ t.sm.deleted < 100000 ∧
        (t.sm.entries.length : Int) ≤ Len t + 99999 := by
    intro t ht
    have hi := Inv_of_Reachable ht
    have hlt := deleted_lt_of_Reachable ht
    have htot := hi.total
    refine ⟨hi.deleted_nonneg, hlt, ?_⟩
    show (t.sm.entries.length : Int) ≤ t.sm.len + 99999
    omega
  refine ⟨hbound s hs, ?_⟩
  intro k hk
  obtain ⟨p, hr⟩ := ref_of_found hk
  have hdel := Delete_of_ref h hr
  refine ⟨_, hdel, ?_, ?_, hbound _ (Reachable_Delete hs hdel)⟩
  · intro hlt
    have hc : ¬ (s.sm.deleted + 1 ≥ 100000) := by omega
    exact ⟨if_neg hc, if_neg hc⟩
  · intro heq
    have hc : s.sm.deleted + 1 ≥ 100000 := by omega
    exact ⟨if_pos hc, if_pos hc⟩

theorem C18_witness :
    Reachable exOneThree ∧ (Get exOneThree 1).2 = true ∧ exOneThree.sm.deleted < 99999 ∧
      ∃ s2, Delete exOneThree 1 = some s2 ∧ s2.sm.entries = exOneThree.sm.entries ∧
        s2.sm.deleted = exOneThree.sm.deleted + 1 := by
  obtain ⟨s2, hd, h1, _, _⟩ :=
    (C18_compaction_threshold exOneThree exOneThree_reachable).2 1 (by decide)
  exact ⟨exOneThree_reachable, by decide, by decide, s2, hd, h1 (by decide)⟩

/-- C19: in every reachable state the length of the backing sequence is the
live count plus the tombstone count; so whenever `Delete` of an indexed key
reaches the compaction branch of `delete()`, the capacity requested from `make`
is non-negative (the allocation does not panic) and is exactly the number of
entries copied into the new sequence. -/
theorem C19_length_is_len_plus_deleted [DecidableEq K] [Inhabited V] (s : State K V)
    (hs : Reachable s) :
    (s.sm.entries.length : Int) = s.sm.len + s.sm.deleted ∧
    ∀ k p, s.sm.refMap k = some p → s.sm.deleted + 1 ≥ 100000 →
      Delete s k = delete (markDeleted s k p) ∧
      0 ≤ compactCap (markDeleted s k p) ∧
      compactCap (markDeleted s k p)
        = ((compactLoop (markDeleted s k p).mem (markDeleted s k p).sm.entries []).length
            : Int) ∧
      ∃ s2, delete (markDeleted s k p) = some s2 ∧
        s2.sm.entries
          = compactLoop (markDeleted s k p).mem (markDeleted s k p).sm.entries [] := by
  have h := Inv_of_Reachable hs
  refine ⟨h.total.symm, ?_⟩
  intro k p hr hc
  have hlen := length_compactLoop_markDeleted h hr
  have hcap : compactCap (markDeleted s k p) = s.sm.len - 1 := by
    have htot := h.total
    show (s.sm.entries.length : Int) - (s.sm.deleted + 1) = s.sm.len - 1
    omega
  have hnn : (0 : Int) ≤ compactCap (markDeleted s k p) := by
    rw [hcap, ← hlen]
    exact Int.natCast_nonneg _
  refine ⟨Delete_eq_delete_markDeleted s hr, hnn, by rw [hcap, hlen], ?_⟩
  have hc2 : (markDeleted s k p).sm.deleted + 1 ≥ 100000 := hc
  refine ⟨{ mem := (markDeleted s k p).mem
            sm := { entries :=
                      compactLoop (markDeleted s k p).mem (markDeleted s k p).sm.entries []
                    refMap := (markDeleted s k p).sm.refMap
                    len := (markDeleted s k p).sm.len - 1, deleted := 0 } }, ?_, rfl⟩
  unfold delete
  simp only [hc2, if_true, not_lt.2 hnn, if_false]

theorem C19_witness :
    Reachable exOneThree ∧
      (exOneThree.sm.entries.length : Int) = exOneThree.sm.len + exOneThree.sm.deleted :=
  ⟨exOneThree_reachable, (C19_length_is_len_plus_deleted exOneThree exOneThree_reachable).1⟩

/-- C20: the three views agree.  In every state `Keys()` yields the first
components and `Values()` the second components of what `All()` yields, element
for element in the same order, to every consumer; `SequenceToSlice` of either
returns exactly those elements in that order. -/
theorem C20_views_agree (s : State K V) :
    SequenceToSlice (Keys s) = (Seq2ToSlice (All s)).map Prod.fst ∧
    SequenceToSlice (Values s) = (Seq2ToSlice (All s)).map Prod.snd ∧
    (∀ (σ : Type) (y : σ → K → σ × Bool) (acc : σ),
      Keys s σ y acc = All s σ (fun a k _ => y a k) acc) ∧
    (∀ (σ : Type) (y : σ → V → σ × Bool) (acc : σ),
      Values s σ y acc = All s σ (fun a _ v => y a v) acc) :=
  ⟨Keys_eq_All s, Values_eq_All s, fun _ _ _ => rfl, fun _ _ _ => rfl⟩

/-! ## Arbitrary comparable key types -/

theorem mapLookup_of_selfEq [Comparable K] (m : K → Option Nat) {k : K}
    (hk : Comparable.selfEq k = true) : mapLookup m k = m k := by
  simp [mapLookup, hk]

theorem mapLookup_of_not_selfEq [Comparable K] (m : K → Option Nat) {k : K}
    (hk : Comparable.selfEq k = false) : mapLookup m k = none := by
  simp [mapLookup, hk]

theorem mapAssign_of_selfEq [DecidableEq K] [Comparable K] (m : K → Option Nat) {k : K}
    (hk : Comparable.selfEq k = true) (p : Nat) :
    mapAssign m k p = Function.update m k (some p) := by
  simp [mapAssign, hk]

theorem mapAssign_of_not_selfEq [DecidableEq K] [Comparable K] (m : K → Option Nat) {k : K}
    (hk : Comparable.selfEq k = false) (p : Nat) : mapAssign m k p = m := by
  simp [mapAssign, hk]

theorem mapDelete_of_selfEq [DecidableEq K] [Comparable K] (m : K → Option Nat) {k : K}
    (hk : Comparable.selfEq k = true) : mapDelete m k = Function.update m k none := by
  simp [mapDelete, hk]

theorem anykey_Set_eq [DecidableEq K] [Comparable K]
    (hall : ∀ k : K, Comparable.selfEq k = true) (s : State K V) (k : K) (v : V) :
    anykey.Set s k v = Set s k v := by
  simp [anykey.Set, Set, mapLookup, mapAssign, hall]

theorem anykey_Get_eq [Comparable K] [Inhabited V]
    (hall : ∀ k : K, Comparable.selfEq k = true) (s : State K V) (k : K) :
    anykey.Get s k = Get s k := by
  simp [anykey.Get, Get, mapLookup, hall]

theorem anykey_Delete_eq [DecidableEq K] [Comparable K] [Inhabited V]
    (hall : ∀ k : K, Comparable.selfEq k = true) (s : State K V) (k : K) :
    anykey.Delete s k = Delete s k := by
  simp [anykey.Delete, Delete, mapLookup, mapDelete, hall]

theorem anykey_lookup_eq [Comparable K] {s : State K V} (h : anykey.Inv s) (k : K) :
    mapLookup s.sm.refMap k = s.sm.refMap k := by
  cases hk : Comparable.selfEq k with
  | true => exact mapLookup_of_selfEq _ hk
  | false =>
    rw [mapLookup_of_not_selfEq _ hk]
    cases hr : s.sm.refMap k with
    | none => rfl
    | some p =>
      have := (h.ref_live k p hr).2.1
      rw [hk] at this
      cases this

theorem anykey_split [Comparable K] {s : State K V} (h : anykey.Inv s) {k : K} {p : Nat}
    (hr : s.sm.refMap k = some p) :
    ∃ l1 l2 e, s.sm.entries = l1 ++ p :: l2 ∧ p ∉ l1 ∧ p ∉ l2 ∧
      deref s.mem p = some e ∧ e.key = k ∧ e.deleted = false ∧
      Comparable.selfEq k = true ∧
      (∀ c ∈ liveCells s.mem l1, c.key ≠ k) ∧ (∀ c ∈ liveCells s.mem l2, c.key ≠ k) := by
  obtain ⟨hp, hself, e, he, hk, hd⟩ := h.ref_live k p hr
  obtain ⟨l1, l2, hl⟩ := List.append_of_mem hp
  have hnd := h.nodup
  rw [hl] at hnd
  have hp1 : p ∉ l1 := by
    intro hm
    have := (List.nodup_append.1 hnd).2.2
    exact this hm (List.mem_cons_self p l2)
  have hp2 : p ∉ l2 := by
    have := (List.nodup_append.1 hnd).2.1
    exact (List.nodup_cons.1 this).1
  have key : ∀ l : List Nat, (∀ q ∈ l, q ∈ s.sm.entries) → p ∉ l →
      ∀ c ∈ liveCells s.mem l, c.key ≠ k := by
    intro l hsub hpl c hc hck
    obtain ⟨q, hq, hqc, hqd⟩ := mem_liveCells.1 hc
    have := h.live_ref q (hsub q hq) c hqc hqd (by rw [hck]; exact hself)
    rw [hck, hr] at this
    injection this with this
    exact hpl (this ▸ hq)
  refine ⟨l1, l2, e, hl, hp1, hp2, he, hk, hd, hself, key l1 ?_ hp1, key l2 ?_ hp2⟩
  · intro q hq; rw [hl]; exact List.mem_append_left _ hq
  · intro q hq; rw [hl]; exact List.mem_append_right _ (List.mem_cons_of_mem _ hq)

theorem anykey_not_ref [Comparable K] {s : State K V} (h : anykey.Inv s) {k : K}
    (hself : Comparable.selfEq k = true) (hr : s.sm.refMap k = none) :
    ∀ c ∈ liveCells s.mem s.sm.entries, c.key ≠ k := by
  intro c hc hck
  obtain ⟨q, hq, hqc, hqd⟩ := mem_liveCells.1 hc
  have := h.live_ref q hq c hqc hqd (by rw [hck]; exact hself)
  rw [hck, hr] at this
  cases this

theorem anykey_Set_of_ref [DecidableEq K] [Comparable K] {s : State K V} (h : anykey.Inv s)
    {k : K} {p : Nat} (hr : s.sm.refMap k = some p) (v : V) :
    anykey.Set s k v =
      { mem := s.mem.modify (fun e => { key := e.key, value := v, deleted := e.deleted }) p
        sm := s.sm } := by
  obtain ⟨_, _, e, he, _, hd⟩ := h.ref_live k p hr
  have hl : mapLookup s.sm.refMap k = some p := by rw [anykey_lookup_eq h, hr]
  simp [anykey.Set, hl, he, hd]

theorem anykey_Set_of_miss [DecidableEq K] [Comparable K] (s : State K V) {k : K}
    (hl : mapLookup s.sm.refMap k = none) (v : V) :
    anykey.Set s k v =
      { mem := s.mem ++ [{ key := k, value := v, deleted := false }]
        sm := { entries := s.sm.entries ++ [s.mem.length]
                refMap := mapAssign s.sm.refMap k s.mem.length
                len := s.sm.len + 1, deleted := s.sm.deleted } } := by
  simp [anykey.Set, hl, newEntry]

theorem anykey_Delete_of_miss [DecidableEq K] [Comparable K] [Inhabited V] (s : State K V)
    {k : K} (hl : mapLookup s.sm.refMap k = none) : anykey.Delete s k = some s := by
  simp [anykey.Delete, hl]

theorem anykey_Delete_of_ref [DecidableEq K] [Comparable K] [Inhabited V] {s : State K V}
    (h : anykey.Inv s) {k : K} {p : Nat} (hr : s.sm.refMap k = some p) :
    anykey.Delete s k = some
      { mem := s.mem.modify (fun e => { key := e.key, value := default, deleted := true }) p
        sm := { entries := if s.sm.deleted + 1 ≥ 100000
                  then s.sm.entries.filter (isLive
                    (s.mem.modify (fun e => { key := e.key, value := default, deleted := true }) p))
                  else s.sm.entries
                refMap := Function.update s.sm.refMap k none
                len := s.sm.len - 1
                deleted := if s.sm.deleted + 1 ≥ 100000 then 0 else s.sm.deleted + 1 } } := by
  obtain ⟨l1, l2, e, hl, _, _, he, _, hd, hself, _, _⟩ := anykey_split h hr
  have hlen : 1 ≤ s.sm.len := by
    rw [h.len_eq, hl, liveCells_split l1 l2 he hd]
    simp
    omega
  have htot := h.total
  have hlk : mapLookup s.sm.refMap k = some p := by rw [anykey_lookup_eq h, hr]
  simp only [anykey.Delete, hlk, mapDelete_of_selfEq _ hself]
  rw [delete_eq]
  simp only [compactCap]
  omega

theorem anykey_Inv_init [Comparable K] (s : State K V) : anykey.Inv (init s) where
  valid := by intro p hp; cases hp
  nodup := List.nodup_nil
  ref_live := by intro k p hr; cases hr
  live_ref := by intro p hp; cases hp
  len_eq := rfl
  total := rfl

theorem anykey_Inv_Set [DecidableEq K] [Comparable K] {s : State K V} (h : anykey.Inv s)
    (k : K) (v : V) : anykey.Inv (anykey.Set s k v) := by
  cases hr : s.sm.refMap k with
  | some p =>
    rw [anykey_Set_of_ref h hr]
    obtain ⟨l1, l2, e, hl, h1, h2, he, _, hd, _, _, _⟩ := anykey_split h hr
    refine ⟨?_, h.nodup, ?_, ?_, ?_, h.total⟩
    · intro q hq
      simpa using h.valid q hq
    · intro k2 p2 hr2
      obtain ⟨hp2, hs2, e2, he2, hk2, hd2⟩ := h.ref_live k2 p2 hr2
      refine ⟨hp2, hs2, ?_⟩
      by_cases hpp : p = p2
      · subst hpp
        refine ⟨{ key := e2.key, value := v, deleted := e2.deleted }, ?_, hk2, hd2⟩
        show deref (s.mem.modify _ p) p = _
        rw [deref_modify_eq, he2]; rfl
      · exact ⟨e2, (deref_modify_ne _ _ hpp).trans he2, hk2, hd2⟩
    · intro q hq c hc hcd hcs
      by_cases hpq : p = q
      · subst hpq
        have hc2 : deref (s.mem.modify
            (fun e => { key := e.key, value := v, deleted := e.deleted }) p) p = some c := hc
        rw [deref_modify_eq, he] at hc2
        injection hc2 with hc2
        subst hc2
        exact h.live_ref p hq e he hd hcs
      · have hc2 : deref (s.mem.modify
            (fun e => { key := e.key, value := v, deleted := e.deleted }) p) q = some c := hc
        rw [deref_modify_ne _ _ hpq] at hc2
        exact h.live_ref q hq c hc2 hcd hcs
    · show s.sm.len = ((liveCells (s.mem.modify _ p) s.sm.entries).length : Int)
      rw [h.len_eq, hl, liveCells_modify_split _ _ h1 h2 he, liveCells_split l1 l2 he hd]
      simp [hd]
  | none =>
    have hlk : mapLookup s.sm.refMap k = none := by rw [anykey_lookup_eq h, hr]
    rw [anykey_Set_of_miss s hlk]
    have hvalid : ∀ q ∈ s.sm.entries ++ [s.mem.length],
        q < (s.mem ++ [({ key := k, value := v, deleted := false } : entry K V)]).length := by
      intro q hq
      simp only [List.mem_append, List.mem_singleton] at hq
      simp only [List.length_append, List.length_singleton]
      rcases hq with hq | hq
      · exact Nat.lt_succ_of_lt (h.valid q hq)
      · omega
    have hnodup : (s.sm.entries ++ [s.mem.length]).Nodup := by
      refine List.nodup_append.2 ⟨h.nodup, List.nodup_singleton _, ?_⟩
      intro q hq hq2
      have := h.valid q hq
      simp only [List.mem_singleton] at hq2
      omega
    have hlen : s.sm.len + 1 = ((liveCells
        (s.mem ++ [({ key := k, value := v, deleted := false } : entry K V)])
        (s.sm.entries ++ [s.mem.length])).length : Int) := by
      rw [liveCells_insert _ h.valid rfl, h.len_eq]
      simp
    have htotal : s.sm.len + 1 + s.sm.deleted
        = ((s.sm.entries ++ [s.mem.length]).length : Int) := by
      have := h.total
      simp only [List.length_append, List.length_singleton]
      push_cast
      omega
    cases hself : Comparable.selfEq k with
    | true =>
      rw [mapAssign_of_selfEq _ hself]
      refine ⟨hvalid, hnodup, ?_, ?_, hlen, htotal⟩
      · intro k2 p2 hr2
        by_cases hk : k2 = k
        · subst hk
          simp only [Function.update_same] at hr2
          injection hr2 with hr2
          subst hr2
          exact ⟨by simp, hself, _, deref_append_length _ _, rfl, rfl⟩
        · simp only [Function.update_noteq hk] at hr2
          obtain ⟨hp2, hs2, e2, he2, hk2, hd2⟩ := h.ref_live k2 p2 hr2
          exact ⟨List.mem_append_left _ hp2, hs2, e2,
            (deref_append_lt _ (h.valid p2 hp2)).trans he2, hk2, hd2⟩
      · intro q hq c hc hcd hcs
        simp only [List.mem_append, List.mem_singleton] at hq
        rcases hq with hq | hq
        · have hc2 : deref (s.mem ++ [{ key := k, value := v, deleted := false }]) q
              = some c := hc
          rw [deref_append_lt _ (h.valid q hq)] at hc2
          have hq2 := h.live_ref q hq c hc2 hcd hcs
          have hne : c.key ≠ k := by
            intro hck
            rw [hck, hr] at hq2
            cases hq2
          simpa [Function.update_noteq hne] using hq2
        · subst hq
          have hc2 : deref (s.mem ++ [{ key := k, value := v, deleted := false }]) s.mem.length
              = some c := hc
          rw [deref_append_length] at hc2
          injection hc2 with hc2
          subst hc2
          simp
    | false =>
      rw [mapAssign_of_not_selfEq _ hself]
      refine ⟨hvalid, hnodup, ?_, ?_, hlen, htotal⟩
      · intro k2 p2 hr2
        obtain ⟨hp2, hs2, e2, he2, hk2, hd2⟩ := h.ref_live k2 p2 hr2
        exact ⟨List.mem_append_left _ hp2, hs2, e2,
          (deref_append_lt _ (h.valid p2 hp2)).trans he2, hk2, hd2⟩
      · intro q hq c hc hcd hcs
        simp only [List.mem_append, List.mem_singleton] at hq
        rcases hq with hq | hq
        · have hc2 : deref (s.mem ++ [{ key := k, value := v, deleted := false }]) q
              = some c := hc
          rw [deref_append_lt _ (h.valid q hq)] at hc2
          exact h.live_ref q hq c hc2 hcd hcs
        · subst hq
          have hc2 : deref (s.mem ++ [{ key := k, value := v, deleted := false }]) s.mem.length
              = some c := hc
          rw [deref_append_length] at hc2
          injection hc2 with hc2
          subst hc2
          rw [hself] at hcs
          cases hcs

theorem anykey_Inv_Delete [DecidableEq K] [Comparable K] [Inhabited V] {s s2 : State K V}
    (h : anykey.Inv s) {k : K} (hdel : anykey.Delete s k = some s2) : anykey.Inv s2 := by
  cases hr : s.sm.refMap k with
  | none =>
    have hlk : mapLookup s.sm.refMap k = none := by rw [anykey_lookup_eq h, hr]
    rw [anykey_Delete_of_miss s hlk] at hdel
    injection hdel with hdel
    exact hdel ▸ h
  | some p =>
    rw [anykey_Delete_of_ref h hr] at hdel
    injection hdel with hdel
    subst hdel
    obtain ⟨l1, l2, e, hl, h1, h2, he, hk, hd, _, _, _⟩ := anykey_split h hr
    generalize hm : s.mem.modify (fun e => { key := e.key, value := default, deleted := true }) p
      = mem2
    have hlen2 : mem2.length = s.mem.length := by rw [← hm]; simp
    have hp2 : deref mem2 p = some { key := e.key, value := default, deleted := true } := by
      rw [← hm, deref_modify_eq, he]; rfl
    have hq2 : ∀ q, p ≠ q → deref mem2 q = deref s.mem q := by
      intro q hpq; rw [← hm]; exact deref_modify_ne _ _ hpq
    have hcells : liveCells mem2 s.sm.entries = liveCells s.mem l1 ++ liveCells s.mem l2 := by
      rw [← hm, hl, liveCells_modify_split _ _ h1 h2 he]
      simp
    have hcells0 : liveCells s.mem s.sm.entries
        = liveCells s.mem l1 ++ e :: liveCells s.mem l2 := by
      rw [hl]; exact liveCells_split l1 l2 he hd
    have hlen := h.len_eq
    rw [hcells0] at hlen
    simp only [List.length_append, List.length_cons] at hlen
    push_cast at hlen
    have href : ∀ k2 p2, Function.update s.sm.refMap k none k2 = some p2 →
        p2 ∈ s.sm.entries ∧ isLive mem2 p2 = true ∧ Comparable.selfEq k2 = true ∧
          ∃ e2, deref mem2 p2 = some e2 ∧ e2.key = k2 ∧ e2.deleted = false := by
      intro k2 p2 hr2
      by_cases hk2 : k2 = k
      · subst hk2
        simp at hr2
      · rw [Function.update_noteq hk2] at hr2
        obtain ⟨hp, hs2, e2, he2, hke2, hde2⟩ := h.ref_live k2 p2 hr2
        have hne : p ≠ p2 := by
          rintro rfl
          rw [he] at he2
          injection he2 with he2
          subst he2
          exact hk2 (hke2.symm.trans hk)
        have he3 : deref mem2 p2 = some e2 := (hq2 p2 hne).trans he2
        exact ⟨hp, isLive_of_deref he3 hde2, hs2, e2, he3, hke2, hde2⟩
    have hlive : ∀ q ∈ s.sm.entries, ∀ c, deref mem2 q = some c → c.deleted = false →
        Comparable.selfEq c.key = true →
        Function.update s.sm.refMap k none c.key = some q := by
      intro q hq c hc hcd hcs
      have hne : p ≠ q := by
        rintro rfl
        rw [hp2] at hc
        injection hc with hc
        subst hc
        cases hcd
      rw [hq2 q hne] at hc
      have hq3 := h.live_ref q hq c hc hcd hcs
      have hck : c.key ≠ k := by
        intro hck
        rw [hck, hr] at hq3
        injection hq3 with hq3
        exact hne hq3
      rw [Function.update_noteq hck]
      exact hq3
    by_cases hc : s.sm.deleted + 1 ≥ 100000
    · simp only [hc, if_true]
      refine ⟨?_, ?_, ?_, ?_, ?_, ?_⟩
      · intro q hq
        rw [hlen2]
        exact h.valid q (List.mem_filter.1 hq).1
      · exact h.nodup.filter _
      · intro k2 p2 hr2
        obtain ⟨hp, hl2, hs2, he2⟩ := href k2 p2 hr2
        exact ⟨List.mem_filter.2 ⟨hp, hl2⟩, hs2, he2⟩
      · intro q hq c hcq hcd hcs
        exact hlive q (List.mem_filter.1 hq).1 c hcq hcd hcs
      · show s.sm.len - 1 = ((liveCells mem2 (s.sm.entries.filter (isLive mem2))).length : Int)
        rw [liveCells_filter_isLive, hcells]
        simp only [List.length_append]
        push_cast
        omega
      · show s.sm.len - 1 + 0 = ((s.sm.entries.filter (isLive mem2)).length : Int)
        rw [length_filter_isLive, hcells]
        simp only [List.length_append]
        push_cast
        omega
    · simp only [hc, if_false]
      refine ⟨?_, h.nodup, ?_, hlive, ?_, ?_⟩
      · intro q hq
        rw [hlen2]
        exact h.valid q hq
      · intro k2 p2 hr2
        obtain ⟨hp, _, hs2, he2⟩ := href k2 p2 hr2
        exact ⟨hp, hs2, he2⟩
      · show s.sm.len - 1 = ((liveCells mem2 s.sm.entries).length : Int)
        rw [hcells]
        simp only [List.length_append]
        push_cast
        omega
      · show s.sm.len - 1 + (s.sm.deleted + 1) = (s.sm.entries.length : Int)
        have := h.total
        omega

theorem anykey_Inv_step [DecidableEq K] [Comparable K] [Inhabited V] {s s2 : State K V}
    (h : anykey.Inv s) {op : Op K V} (hs : anykey.step s op = some s2) : anykey.Inv s2 := by
  cases op with
  | set k v =>
    simp only [anykey.step, Option.some.injEq] at hs
    exact hs ▸ anykey_Inv_Set h k v
  | delete k => exact anykey_Inv_Delete h hs
  | reset =>
    simp only [anykey.step, Option.some.injEq] at hs
    exact hs ▸ anykey_Inv_init s

theorem anykey_Inv_run [DecidableEq K] [Comparable K] [Inhabited V] :
    ∀ (ops : List (Op K V)) {s s2 : State K V}, anykey.Inv s → anykey.run s ops = some s2 →
      anykey.Inv s2
  | [], s, s2, h, hr => by
    simp only [anykey.run, Option.some.injEq] at hr
    exact hr ▸ h
  | op :: ops, s, s2, h, hr => by
    simp only [anykey.run] at hr
    cases hs : anykey.step s op with
    | none => rw [hs] at hr; cases hr
    | some s1 =>
      rw [hs] at hr
      exact anykey_Inv_run ops (anykey_Inv_step h hs) hr

theorem anykey_Inv_of_Reachable [DecidableEq K] [Comparable K] [Inhabited V] {s : State K V}
    (h : anykey.Reachable s) : anykey.Inv s := by
  obtain ⟨mem, ops, hr⟩ := h
  exact anykey_Inv_run ops (anykey_Inv_init _) hr

theorem anykey_Delete_isSome [DecidableEq K] [Comparable K] [Inhabited V] {s : State K V}
    (h : anykey.Inv s) (k : K) : ∃ s2, anykey.Delete s k = some s2 := by
  cases hr : s.sm.refMap k with
  | none =>
    exact ⟨s, anykey_Delete_of_miss s (by rw [anykey_lookup_eq h, hr])⟩
  | some p => exact ⟨_, anykey_Delete_of_ref h hr⟩

theorem anykey_step_isSome [DecidableEq K] [Comparable K] [Inhabited V] {s : State K V}
    (h : anykey.Inv s) (op : Op K V) : ∃ s2, anykey.step s op = some s2 := by
  cases op with
  | set k v => exact ⟨_, rfl⟩
  | delete k => exact anykey_Delete_isSome h k
  | reset => exact ⟨_, rfl⟩

theorem anykey_run_isSome [DecidableEq K] [Comparable K] [Inhabited V] :
    ∀ (ops : List (Op K V)) {s : State K V}, anykey.Inv s →
      ∃ s2, anykey.run s ops = some s2
  | [], s, _ => ⟨s, rfl⟩
  | op :: ops, s, h => by
    obtain ⟨s1, hs1⟩ := anykey_step_isSome h op
    obtain ⟨s2, hr⟩ := anykey_run_isSome ops (anykey_Inv_step h hs1)
    refine ⟨s2, ?_⟩
    simp only [anykey.run, hs1, Option.some_bind]
    exact hr

theorem anykey_run_append [DecidableEq K] [Comparable K] [Inhabited V] :
    ∀ (ops ops2 : List (Op K V)) (s : State K V),
      anykey.run s (ops ++ ops2) = (anykey.run s ops).bind (fun s1 => anykey.run s1 ops2)
  | [], ops2, s => rfl
  | op :: ops, ops2, s => by
    simp only [anykey.run, List.cons_append]
    cases anykey.step s op with
    | none => rfl
    | some s1 => exact anykey_run_append ops ops2 s1

theorem anykey_Get_of_miss [Comparable K] [Inhabited V] (s : State K V) {k : K}
    (hl : mapLookup s.sm.refMap k = none) : anykey.Get s k = (default, false) := by
  simp [anykey.Get, hl]

theorem anykey_miss_of_not_found [Comparable K] [Inhabited V] {s : State K V} {k : K}
    (h : (anykey.Get s k).2 = false) : mapLookup s.sm.refMap k = none := by
  cases hl : mapLookup s.sm.refMap k with
  | none => rfl
  | some p =>
    exfalso
    cases he : deref s.mem p with
    | none => simp [anykey.Get, hl, he] at h
    | some e => simp [anykey.Get, hl, he] at h

theorem anykey_Get_Set_self [DecidableEq K] [Comparable K] [Inhabited V] {s : State K V}
    (h : anykey.Inv s) {k : K} (hself : Comparable.selfEq k = true) (v : V) :
    anykey.Get (anykey.Set s k v) k = (v, true) := by
  cases hr : s.sm.refMap k with
  | some p =>
    obtain ⟨_, _, e, he, _, _⟩ := h.ref_live k p hr
    rw [anykey_Set_of_ref h hr]
    have hd : deref (s.mem.modify
        (fun e => { key := e.key, value := v, deleted := e.deleted }) p) p
        = some { key := e.key, value := v, deleted := e.deleted } := by
      rw [deref_modify_eq, he]; rfl
    simp [anykey.Get, mapLookup_of_selfEq _ hself, hr, hd]
  | none =>
    rw [anykey_Set_of_miss s (by rw [mapLookup_of_selfEq _ hself, hr])]
    simp [anykey.Get, mapLookup_of_selfEq _ hself, mapAssign_of_selfEq _ hself,
      deref_append_length]

theorem anykey_cells_Set_live [DecidableEq K] [Comparable K] {s : State K V}
    (h : anykey.Inv s) {k : K} {p : Nat} (hr : s.sm.refMap k = some p) (v : V) :
    ∃ L1 L2 e, deref s.mem p = some e ∧ e.key = k ∧ e.deleted = false ∧
      liveCells s.mem s.sm.entries = L1 ++ e :: L2 ∧
      liveCells (anykey.Set s k v).mem (anykey.Set s k v).sm.entries
        = L1 ++ { key := k, value := v, deleted := false } :: L2 ∧
      (∀ c ∈ L1, c.key ≠ k) ∧ (∀ c ∈ L2, c.key ≠ k) := by
  obtain ⟨l1, l2, e, hl, h1, h2, he, hk, hd, _, hk1, hk2⟩ := anykey_split h hr
  refine ⟨liveCells s.mem l1, liveCells s.mem l2, e, he, hk, hd, ?_, ?_, hk1, hk2⟩
  · rw [hl]
    exact liveCells_split l1 l2 he hd
  · rw [anykey_Set_of_ref h hr]
    show liveCells (s.mem.modify _ p) s.sm.entries = _
    rw [hl, liveCells_modify_split _ _ h1 h2 he]
    simp [hd, hk]

theorem anykey_cells_Set_new [DecidableEq K] [Comparable K] {s : State K V}
    (h : anykey.Inv s) {k : K} (hl : mapLookup s.sm.refMap k = none) (v : V) :
    liveCells (anykey.Set s k v).mem (anykey.Set s k v).sm.entries
      = liveCells s.mem s.sm.entries ++ [{ key := k, value := v, deleted := false }] := by
  rw [anykey_Set_of_miss s hl]
  exact liveCells_insert _ h.valid rfl

theorem anykey_cells_Delete [DecidableEq K] [Comparable K] [Inhabited V] {s : State K V}
    (h : anykey.Inv s) {k : K} {p : Nat} (hr : s.sm.refMap k = some p) :
    ∃ s2 L1 L2 e, anykey.Delete s k = some s2 ∧ deref s.mem p = some e ∧ e.key = k ∧
      e.deleted = false ∧
      liveCells s.mem s.sm.entries = L1 ++ e :: L2 ∧
      liveCells s2.mem s2.sm.entries = L1 ++ L2 ∧
      (∀ c ∈ L1, c.key ≠ k) ∧ (∀ c ∈ L2, c.key ≠ k) := by
  obtain ⟨l1, l2, e, hl, h1, h2, he, hk, hd, _, hk1, hk2⟩ := anykey_split h hr
  refine ⟨_, liveCells s.mem l1, liveCells s.mem l2, e, anykey_Delete_of_ref h hr, he, hk, hd,
    ?_, ?_, hk1, hk2⟩
  · rw [hl]
    exact liveCells_split l1 l2 he hd
  · have hcells : liveCells
        (s.mem.modify (fun e => { key := e.key, value := default, deleted := true }) p)
        s.sm.entries = liveCells s.mem l1 ++ liveCells s.mem l2 := by
      rw [hl, liveCells_modify_split _ _ h1 h2 he]
      simp
    by_cases hc : s.sm.deleted + 1 ≥ 100000
    · simp only [hc, if_true]
      rw [liveCells_filter_isLive, hcells]
    · simp only [hc, if_false]
      exact hcells

theorem anykey_All_Set_new [DecidableEq K] [Comparable K] {s : State K V}
    (h : anykey.Inv s) {k : K} (hl : mapLookup s.sm.refMap k = none) (v : V) :
    Seq2ToSlice (All (anykey.Set s k v)) = Seq2ToSlice (All s) ++ [(k, v)] := by
  rw [All_eq, All_eq, anykey_cells_Set_new h hl, List.map_append]
  rfl

theorem anykey_All_Set [DecidableEq K] [Comparable K] {s : State K V} (h : anykey.Inv s)
    {k : K} (hself : Comparable.selfEq k = true) (v : V) :
    Seq2ToSlice (All (anykey.Set s k v)) = specSet (Seq2ToSlice (All s)) k v := by
  cases hr : s.sm.refMap k with
  | none =>
    rw [anykey_All_Set_new h (by rw [mapLookup_of_selfEq _ hself, hr])]
    have hk : k ∉ (Seq2ToSlice (All s)).map Prod.fst := by
      rw [All_eq, List.map_map]
      intro hm
      obtain ⟨c, hc, hck⟩ := List.mem_map.1 hm
      exact anykey_not_ref h hself hr c hc hck
    rw [specSet_of_not_mem hk]
  | some p =>
    rw [All_eq, All_eq]
    obtain ⟨L1, L2, e, _, hk, _, hcells, hcells2, hk1, hk2⟩ := anykey_cells_Set_live h hr v
    rw [hcells2, hcells]
    have hmem : k ∈ ((L1 ++ e :: L2).map (fun e => (e.key, e.value))).map Prod.fst := by
      simp [hk]
    unfold specSet
    rw [if_pos hmem, List.map_append, List.map_append, List.map_cons, List.map_cons,
      List.map_append, List.map_cons, map_pair_update_ne v hk1, map_pair_update_ne v hk2]
    simp [hk]

theorem anykey_All_Delete [DecidableEq K] [Comparable K] [Inhabited V] {s s2 : State K V}
    (h : anykey.Inv s) {k : K} (hself : Comparable.selfEq k = true)
    (hdel : anykey.Delete s k = some s2) :
    Seq2ToSlice (All s2) = specDelete (Seq2ToSlice (All s)) k := by
  rw [All_eq, All_eq]
  unfold specDelete
  cases hr : s.sm.refMap k with
  | none =>
    rw [anykey_Delete_of_miss s (by rw [mapLookup_of_selfEq _ hself, hr])] at hdel
    injection hdel with hdel
    subst hdel
    exact (map_pair_filter_ne (anykey_not_ref h hself hr)).symm
  | some p =>
    obtain ⟨s3, L1, L2, e, hdel3, _, hk, _, hcells, hcells2, hk1, hk2⟩ :=
      anykey_cells_Delete h hr
    rw [hdel] at hdel3
    injection hdel3 with hdel3
    subst hdel3
    rw [hcells2, hcells, List.map_append, List.map_append, List.map_cons, List.filter_append,
      List.filter_cons, map_pair_filter_ne hk1, map_pair_filter_ne hk2]
    simp [hk]

theorem anykey_isSome_Set [DecidableEq K] [Comparable K] {s : State K V} (h : anykey.Inv s)
    (k : K) (v : V) {j : K} (hj : Comparable.selfEq j = true) :
    ((anykey.Set s k v).sm.refMap j).isSome = (decide (j = k) || (s.sm.refMap j).isSome) := by
  cases hr : s.sm.refMap k with
  | some p =>
    rw [anykey_Set_of_ref h hr]
    by_cases hjk : j = k
    · subst hjk
      simp [hr]
    · simp [hjk]
  | none =>
    rw [anykey_Set_of_miss s (by rw [anykey_lookup_eq h, hr])]
    cases hself : Comparable.selfEq k with
    | true =>
      rw [mapAssign_of_selfEq _ hself]
      by_cases hjk : j = k
      · subst hjk
        simp
      · simp [Function.update_noteq hjk, hjk]
    | false =>
      rw [mapAssign_of_not_selfEq _ hself]
      have hjk : j ≠ k := by
        rintro rfl
        rw [hj] at hself
        cases hself
      simp [hjk]

theorem anykey_isSome_Delete [DecidableEq K] [Comparable K] [Inhabited V] {s s2 : State K V}
    (h : anykey.Inv s) {k : K} (hdel : anykey.Delete s k = some s2) (j : K) :
    (s2.sm.refMap j).isSome = (!decide (j = k) && (s.sm.refMap j).isSome) := by
  cases hr : s.sm.refMap k with
  | some p =>
    rw [anykey_Delete_of_ref h hr] at hdel
    injection hdel with hdel
    subst hdel
    by_cases hj : j = k
    · subst hj
      simp
    · simp [Function.update_noteq hj, hj]
  | none =>
    rw [anykey_Delete_of_miss s (by rw [anykey_lookup_eq h, hr])] at hdel
    injection hdel with hdel
    subst hdel
    by_cases hj : j = k
    · subst hj
      simp [hr]
    · simp [hj]

theorem anykey_refMap_isSome_run [DecidableEq K] [Comparable K] [Inhabited V]
    (mem : List (entry K V)) (ops : List (Op K V)) :
    ∀ (s : State K V), anykey.run (NewStableMap mem) ops = some s →
      ∀ k, Comparable.selfEq k = true →
        (s.sm.refMap k).isSome = lastTouchingIsSet ops k := by
  induction ops using List.reverseRecOn with
  | nil =>
    intro s hr k _
    simp only [anykey.run, Option.some.injEq] at hr
    subst hr
    rfl
  | append_singleton ops op ih =>
    intro s hr k hk
    rw [anykey_run_append] at hr
    cases hr1 : anykey.run (NewStableMap mem) ops with
    | none => rw [hr1] at hr; cases hr
    | some s1 =>
      rw [hr1, Option.some_bind] at hr
      have hi := anykey_Inv_run ops (anykey_Inv_init _) hr1
      have ih1 := ih s1 hr1 k hk
      rw [lastTouchingIsSet_concat]
      cases op with
      | set j v =>
        simp only [anykey.run, anykey.step, Option.some_bind, Option.some.injEq] at hr
        subst hr
        rw [anykey_isSome_Set hi j v hk, ih1]
        by_cases hjk : j = k
        · subst hjk
          simp [Op.touches, Op.isSet]
        · have hkj : ¬ k = j := fun hh => hjk hh.symm
          simp [Op.touches, hjk, hkj]
      | delete j =>
        simp only [anykey.run, anykey.step] at hr
        cases hd : anykey.Delete s1 j with
        | none => rw [hd] at hr; cases hr
        | some s2 =>
          rw [hd, Option.some_bind, Option.some.injEq] at hr
          subst hr
          rw [anykey_isSome_Delete hi hd k, ih1]
          by_cases hjk : j = k
          · subst hjk
            simp [Op.touches, Op.isSet]
          · have hkj : ¬ k = j := fun hh => hjk hh.symm
            simp [Op.touches, hjk, hkj]
      | reset =>
        simp only [anykey.run, anykey.step, Option.some_bind, Option.some.injEq] at hr
        subst hr
        simp [Op.touches, Op.isSet, Reset, init]

theorem anykey_Reachable_step [DecidableEq K] [Comparable K] [Inhabited V] {s s2 : State K V}
    (h : anykey.Reachable s) {op : Op K V} (hs : anykey.step s op = some s2) :
    anykey.Reachable s2 := by
  obtain ⟨mem, ops, hr⟩ := h
  refine ⟨mem, ops ++ [op], ?_⟩
  rw [anykey_run_append, hr]
  simp [anykey.run, hs]

theorem exFloat_reachable : anykey.Reachable exFloat :=
  ⟨[], [Op.set (FloatKey.num 1) "one", Op.set FloatKey.nan "x"], rfl⟩

/-- C4 (as stated, refuted): on a fresh map with float64-like keys the key NaN
is not live, yet after `Set(NaN, "a")` the call `Get(NaN)` returns `("", false)`
and not `("a", true)`. -/
theorem C4_counterexample :
    anykey.Reachable (NewStableMap ([] : List (entry FloatKey String))) ∧
    (anykey.Get (NewStableMap ([] : List (entry FloatKey String))) FloatKey.nan).2 = false ∧
    anykey.Get (anykey.Set (NewStableMap ([] : List (entry FloatKey String))) FloatKey.nan "a")
      FloatKey.nan = ("", false) ∧
    anykey.Get (anykey.Set (NewStableMap ([] : List (entry FloatKey String))) FloatKey.nan "a")
      FloatKey.nan ≠ ("a", true) :=
  ⟨⟨[], [], rfl⟩, by decide, by decide, by decide⟩

/-- C4 (amended): insert of a new key.  In every reachable state and for every
key `k` that is not live, `Set(k, v)` makes `All()` the previous `All()` followed
by the single pair `(k, v)` and increases `Len()` by exactly 1; it makes `Get(k)`
return `(v, true)` when `k` equals itself, while for a key that differs from
itself (a NaN) `Get(k)` still returns `(zero, false)`. -/
theorem C4_insert_new_key [DecidableEq K] [Comparable K] [Inhabited V] (s : State K V)
    (hs : anykey.Reachable s) (k : K) (v : V) (hk : (anykey.Get s k).2 = false) :
    Seq2ToSlice (All (anykey.Set s k v)) = Seq2ToSlice (All s) ++ [(k, v)] ∧
    Len (anykey.Set s k v) = Len s + 1 ∧
    (Comparable.selfEq k = true → anykey.Get (anykey.Set s k v) k = (v, true)) ∧
    (Comparable.selfEq k = false → anykey.Get (anykey.Set s k v) k = (default, false)) := by
  have h := anykey_Inv_of_Reachable hs
  have hl := anykey_miss_of_not_found hk
  refine ⟨anykey_All_Set_new h hl v, ?_, ?_, ?_⟩
  · rw [anykey_Set_of_miss s hl]
    rfl
  · intro hself
    exact anykey_Get_Set_self h hself v
  · intro hself
    exact anykey_Get_of_miss _ (mapLookup_of_not_selfEq _ hself)

theorem C4_witness :
    anykey.Reachable exFloat ∧ (anykey.Get exFloat (FloatKey.num 3)).2 = false ∧
      Comparable.selfEq (FloatKey.num 3) = true ∧
      Seq2ToSlice (All (anykey.Set exFloat (FloatKey.num 3) "three"))
        = Seq2ToSlice (All exFloat) ++ [(FloatKey.num 3, "three")] ∧
      Len (anykey.Set exFloat (FloatKey.num 3) "three") = Len exFloat + 1 ∧
      anykey.Get (anykey.Set exFloat (FloatKey.num 3) "three") (FloatKey.num 3)
        = ("three", true) :=
  ⟨exFloat_reachable, by decide, by decide,
    (C4_insert_new_key exFloat exFloat_reachable (FloatKey.num 3) "three" (by decide)).1,
    (C4_insert_new_key exFloat exFloat_reachable (FloatKey.num 3) "three" (by decide)).2.1,
    (C4_insert_new_key exFloat exFloat_reachable (FloatKey.num 3) "three" (by decide)).2.2.1
      (by decide)⟩

/-- C8 (as stated, refuted): on a fresh map with float64-like keys,
`Set(NaN, "a"); Delete(NaN); Set(NaN, "b")` leaves the key NaN twice in `Keys()`,
with `Len()` equal to 2 and `Get(NaN)` equal to `("", false)`. -/
theorem C8_counterexample :
    (anykey.run (NewStableMap ([] : List (entry FloatKey String))) opsNaNReinsert).map
        (fun t => (SequenceToSlice (Keys t), (SequenceToSlice (Keys t)).count FloatKey.nan,
          Len t, anykey.Get t FloatKey.nan))
      = some ([FloatKey.nan, FloatKey.nan], 2, 2, ("", false)) := by
  decide

/-- C8 (amended): re-insert after delete.  In every reachable state, for every
key `k` that equals itself and values `v`, `v2`, after
`Set(k, v); Delete(k); Set(k, v2)` the key `k` occurs exactly once in `Keys()`, as
the last element, `Get(k)` is `(v2, true)`, and the other live keys keep their
relative order before it. -/
theorem C8_reinsert_after_delete [DecidableEq K] [Comparable K] [Inhabited V]
    (s : State K V) (hs : anykey.Reachable s) (k : K) (v v2 : V)
    (hself : Comparable.selfEq k = true) :
    ∃ s1, anykey.Delete (anykey.Set s k v) k = some s1 ∧
      SequenceToSlice (Keys (anykey.Set s1 k v2))
        = (SequenceToSlice (Keys s)).filter (fun j => decide (j ≠ k)) ++ [k] ∧
      (SequenceToSlice (Keys (anykey.Set s1 k v2))).count k = 1 ∧
      (SequenceToSlice (Keys (anykey.Set s1 k v2))).getLast? = some k ∧
      anykey.Get (anykey.Set s1 k v2) k = (v2, true) ∧
      Seq2ToSlice (All (anykey.Set s1 k v2))
        = (Seq2ToSlice (All s)).filter (fun kv => decide (kv.1 ≠ k)) ++ [(k, v2)] := by
  have h := anykey_Inv_of_Reachable hs
  have ha := anykey_Inv_Set h k v
  obtain ⟨s1, hdel⟩ := anykey_Delete_isSome ha k
  have hb := anykey_Inv_Delete ha hdel
  have hall : Seq2ToSlice (All (anykey.Set s1 k v2))
      = specDelete (Seq2ToSlice (All s)) k ++ [(k, v2)] := by
    rw [anykey_All_Set hb hself, anykey_All_Delete ha hself hdel, anykey_All_Set h hself,
      specDelete_specSet, specSet_of_not_mem (not_mem_keys_specDelete _ k)]
  have hkeys : SequenceToSlice (Keys (anykey.Set s1 k v2))
      = (SequenceToSlice (Keys s)).filter (fun j => decide (j ≠ k)) ++ [k] := by
    rw [Keys_eq_All, hall, List.map_append, keys_specDelete, Keys_eq_All]
    rfl
  refine ⟨s1, hdel, hkeys, ?_, ?_, anykey_Get_Set_self hb hself v2, hall⟩
  · rw [hkeys, List.count_append, List.count_singleton_self]
    have : List.count k ((SequenceToSlice (Keys s)).filter (fun j => decide (j ≠ k))) = 0 := by
      rw [List.count_eq_zero]
      intro hm
      have := (List.mem_filter.1 hm).2
      simp at this
    rw [this]
  · rw [hkeys, List.getLast?_concat]

theorem C8_witness :
    anykey.Reachable exFloat ∧ Comparable.selfEq (FloatKey.num 1) = true ∧
      ∃ s1, anykey.Delete (anykey.Set exFloat (FloatKey.num 1) "one") (FloatKey.num 1)
          = some s1 ∧
        SequenceToSlice (Keys (anykey.Set s1 (FloatKey.num 1) "ONE"))
          = (SequenceToSlice (Keys exFloat)).filter (fun j => decide (j ≠ FloatKey.num 1))
              ++ [FloatKey.num 1] ∧
        (SequenceToSlice (Keys (anykey.Set s1 (FloatKey.num 1) "ONE"))).count
          (FloatKey.num 1) = 1 ∧
        (SequenceToSlice (Keys (anykey.Set s1 (FloatKey.num 1) "ONE"))).getLast?
          = some (FloatKey.num 1) ∧
        anykey.Get (anykey.Set s1 (FloatKey.num 1) "ONE") (FloatKey.num 1) = ("ONE", true) ∧
        Seq2ToSlice (All (anykey.Set s1 (FloatKey.num 1) "ONE"))
          = (Seq2ToSlice (All exFloat)).filter (fun kv => decide (kv.1 ≠ FloatKey.num 1))
              ++ [(FloatKey.num 1, "ONE")] :=
  ⟨exFloat_reachable, by decide,
    C8_reinsert_after_delete exFloat exFloat_reachable (FloatKey.num 1) "one" "ONE"
      (by decide)⟩

/-- C15 (as stated, refuted): after `Set(1, "one"); Reset()` the most recent
operation on key 1 is a `Set` and no `Delete` of key 1 followed, yet the index
has no entry for key 1; and after `Set(NaN, "a")` the most recent operation on
the key NaN is a `Set`, yet the lookup of NaN in the index fails. -/
theorem C15_counterexample :
    lastOnKeyIsSet opsSetResetFloat (FloatKey.num 1) = true ∧
    (anykey.run (NewStableMap []) opsSetResetFloat).map
        (fun t => ((mapLookup t.sm.refMap (FloatKey.num 1)).isSome,
          anykey.Get t (FloatKey.num 1)))
      = some (false, ("", false)) ∧
    lastOnKeyIsSet opsSetNaN FloatKey.nan = true ∧
    (anykey.run (NewStableMap []) opsSetNaN).map
        (fun t => ((mapLookup t.sm.refMap FloatKey.nan).isSome, anykey.Get t FloatKey.nan))
      = some (false, ("", false)) :=
  ⟨by decide, by decide, by decide, by decide⟩

/-- C15 (amended): every finite sequence of public operations on a map from
`NewStableMap` returns, and afterwards, for every key `K` that equals itself,
the index contains an entry for `K` (the lookup `refMap[K]` succeeds) if and
only if the most recent operation among the `Set`s of `K`, the `Delete`s of `K`
and the `Reset`s is a `Set`, that is, the most recent operation on `K` was a
`Set` and neither a `Delete` of `K` nor a `Reset` occurred after it.  On
sequences without `Reset` this is the invariant as the specification words
it. -/
theorem C15_index_iff_last_is_set [DecidableEq K] [Comparable K] [Inhabited V]
    (mem : List (entry K V)) (ops : List (Op K V)) (k : K)
    (hself : Comparable.selfEq k = true) :
    ∃ s, anykey.run (NewStableMap mem) ops = some s ∧
      ((mapLookup s.sm.refMap k).isSome = true ↔ lastTouchingIsSet ops k = true) ∧
      ((∀ op ∈ ops, op ≠ Op.reset) →
        ((mapLookup s.sm.refMap k).isSome = true ↔ lastOnKeyIsSet ops k = true)) := by
  obtain ⟨s, hr⟩ := anykey_run_isSome ops (anykey_Inv_init
    ({ mem := mem, sm := { entries := [], refMap := fun _ => none, len := 0, deleted := 0 } }
      : State K V))
  have hr2 : anykey.run (NewStableMap mem) ops = some s := hr
  have h := anykey_refMap_isSome_run mem ops s hr2 k hself
  refine ⟨s, hr2, by rw [mapLookup_of_selfEq _ hself, h], ?_⟩
  intro hops
  rw [mapLookup_of_selfEq _ hself, h]
  unfold lastTouchingIsSet lastOnKeyIsSet
  rw [filter_touches_eq_onKey k ops hops]

theorem C15_witness :
    Comparable.selfEq (FloatKey.num 1) = true ∧ (∀ op ∈ opsFloat, op ≠ Op.reset) ∧
      ∃ s, anykey.run (NewStableMap []) opsFloat = some s ∧
        ((mapLookup s.sm.refMap (FloatKey.num 1)).isSome = true
          ↔ lastTouchingIsSet opsFloat (FloatKey.num 1) = true) ∧
        ((mapLookup s.sm.refMap (FloatKey.num 1)).isSome = true
          ↔ lastOnKeyIsSet opsFloat (FloatKey.num 1) = true) := by
  have hops : ∀ op ∈ opsFloat, op ≠ Op.reset := by
    intro op hop
    simp only [opsFloat, List.mem_cons, List.mem_singleton, List.not_mem_nil,
      or_false] at hop
    rcases hop with rfl | rfl | rfl | rfl <;> exact fun hh => Op.noConfusion hh
  obtain ⟨s, hr, h1, h2⟩ := C15_index_iff_last_is_set [] opsFloat (FloatKey.num 1) (by decide)
  exact ⟨by decide, hops, s, hr, h1, h2 hops⟩

end stable_map
